import Mathlib

/-!
# Bakery simulation (`bakery.c`): queues, clock, load-time sort, and the
customer / chef synchronisation protocol

Shallow embedding of `src/bakery.c`.  C `int` fields that the program only ever
uses as non-negative counters or ring indices (`head`, `tail`, `count`, the
register flag, semaphore values) are natural numbers; values that come from the
input (`id`, `arrival`) and clock values are integers, with an explicit 32-bit
wrap where the C code narrows or adds `int`s.
-/

namespace Bakery

/-! ## Configuration constants (`#define`s) -/

def MAXN : Nat := 1024
def MAX_CAPACITY : Nat := 25
def SOFA_CAPACITY : Nat := 4
def NUM_CHEFS : Nat := 4

/-! ## Ring-buffer queue (`Queue`, `q_init`, `q_push`, `q_pop`) -/

/-- The C struct `Queue`: `data[MAXN]` is a map from index to stored value. -/
structure Queue where
  data : Nat → Int
  head : Nat
  tail : Nat
  count : Nat

/-- Source: `q->head = q->tail = q->count = 0;` (the data cells are left as they are). -/
def q_init (q : Queue) : Queue :=
  { q with head := 0, tail := 0, count := 0 }

/-- Source: `q->data[q->tail++] = v; if (q->tail >= MAXN) q->tail = 0; q->count++;` -/
def q_push (q : Queue) (v : Int) : Queue :=
  let data := fun i => if i = q.tail then v else q.data i
  let tail := q.tail + 1
  let tail := if tail ≥ MAXN then 0 else tail
  { data := data, head := q.head, tail := tail, count := q.count + 1 }

/-- Source: `if (q->count == 0) return -1; int v = q->data[q->head++];
    if (q->head >= MAXN) q->head = 0; q->count--; return v;`
    The result is the returned value together with the queue afterwards. -/
def q_pop (q : Queue) : Int × Queue :=
  if q.count = 0 then (-1, q)
  else
    let v := q.data q.head
    let head := q.head + 1
    let head := if head ≥ MAXN then 0 else head
    (v, { q with head := head, count := q.count - 1 })

/-- The entries currently held, oldest first: cells `head, head+1, …` (mod `MAXN`). -/
def Queue.toList (q : Queue) : List Int :=
  (List.range q.count).map (fun i => q.data ((q.head + i) % MAXN))

/-- Ring-buffer representation invariant. -/
def Queue.wf (q : Queue) : Prop :=
  q.head < MAXN ∧ q.count ≤ MAXN ∧ q.tail = (q.head + q.count) % MAXN

instance (q : Queue) : Decidable q.wf := by
  unfold Queue.wf; infer_instance

/-- A queue call: `q_push(q, v)` or `q_pop(q)`. -/
inductive Op where
  | push (v : Int)
  | pop
  deriving DecidableEq, Repr

/-- The values handed to `q_push`, in call order. -/
def pushedValues : List Op → List Int
  | [] => []
  | Op.push v :: rest => v :: pushedValues rest
  | Op.pop :: rest => pushedValues rest

/-- Run a sequence of calls on the ring buffer; collect what the successful
    `q_pop` calls (those made with `count != 0`) return, in call order. -/
def runOps : Queue → List Op → Queue × List Int
  | q, [] => (q, [])
  | q, Op.push v :: rest => runOps (q_push q v) rest
  | q, Op.pop :: rest =>
      if q.count = 0 then runOps (q_pop q).2 rest
      else
        let r := runOps (q_pop q).2 rest
        (r.1, (q_pop q).1 :: r.2)

/-- The queue never holds more than `MAXN` entries at any point of the run. -/
def neverOver : Queue → List Op → Prop
  | q, [] => q.count ≤ MAXN
  | q, Op.push v :: rest => q.count ≤ MAXN ∧ neverOver (q_push q v) rest
  | q, Op.pop :: rest => q.count ≤ MAXN ∧ neverOver (q_pop q).2 rest

/-- Reference list queue (the spec's "ordered sequence of customer ids, FIFO"):
    push appends at the back, pop removes the front; a pop on the empty
    queue yields nothing. -/
def listQueueRun : List Int → List Op → List Int × List Int
  | l, [] => (l, [])
  | l, Op.push v :: rest => listQueueRun (l ++ [v]) rest
  | [], Op.pop :: rest => listQueueRun [] rest
  | x :: l, Op.pop :: rest =>
      let r := listQueueRun l rest
      (r.1, x :: r.2)

/-! ## Clock (`seconds_since_start`, `now_ts`) -/

/-- The C `struct timeval`: whole seconds and microseconds. -/
structure Timeval where
  tv_sec : Int
  tv_usec : Int
  deriving DecidableEq, Repr

/-- Value of a 32-bit two's-complement `int` holding `x` reduced modulo `2^32`:
    the conversion `(int)x` of a `long`, and `int` addition / subtraction with
    wrap-around on overflow (what the usual compilers produce). -/
def toInt32 (x : Int) : Int := (x + 2147483648) % 4294967296 - 2147483648

/-- Source: `long sec = now.tv_sec - t0.tv_sec; long usec = now.tv_usec - t0.tv_usec;
    if (usec < 0) { sec -= 1; usec += 1000000; } return (int)sec;`
    with `now` the reading of `gettimeofday`.  The adjusted `usec` is never read again,
    so only the borrow on `sec` is kept; the `long` differences are exact. -/
def seconds_since_start (t0 now : Timeval) : Int :=
  let sec := now.tv_sec - t0.tv_sec
  let usec := now.tv_usec - t0.tv_usec
  let sec := if usec < 0 then sec - 1 else sec
  toInt32 sec

/-- Source: `return seconds_since_start() + g_start_offset;` (an `int` addition). -/
def now_ts (t0 now : Timeval) (g_start_offset : Int) : Int :=
  toInt32 (seconds_since_start t0 now + g_start_offset)

/-- A wall-clock reading in microseconds. -/
def Timeval.micros (t : Timeval) : Int := t.tv_sec * 1000000 + t.tv_usec

/-- A reading with `0 <= tv_usec < 1000000`. -/
def Timeval.valid (t : Timeval) : Prop := 0 ≤ t.tv_usec ∧ t.tv_usec < 1000000

instance (t : Timeval) : Decidable t.valid := by
  unfold Timeval.valid; infer_instance

/-- Whole seconds elapsed from `t0` to `t`: `floor((t - t0) / 1 s)`. -/
def elapsedSeconds (t0 t : Timeval) : Int := (t.micros - t0.micros) / 1000000

/-- The value is representable in a C `int`. -/
def fitsInt32 (x : Int) : Prop := -2147483648 ≤ x ∧ x < 2147483648

instance (x : Int) : Decidable (fitsInt32 x) := by
  unfold fitsInt32; infer_instance

/-! ## Customers and the slot lookup -/

/-- The C struct `Customer` (`index` is the slot `0..n-1` of its two semaphores). -/
structure Customer where
  id : Int
  arrival : Int
  index : Nat
  deriving DecidableEq, Repr, Inhabited

/-- The chef's lookup loop, scanning from the front of `customers`:
    `int idx = -1; for (i = 0; i < num_customers; i++)
       if (customers[i]->id == cid) { idx = customers[i]->index; break; }` -/
def find_idx : List Customer → Int → Int
  | [], _ => -1
  | c :: rest, cid => if c.id = cid then (c.index : Int) else find_idx rest cid

/-- Source: `if (idx != -1) sem_post(&sem[idx]);` on an array of semaphore values. -/
def post_if_found (sem : Nat → Nat) (idx : Int) : Nat → Nat :=
  if idx ≠ -1 then fun i => if i = idx.toNat then sem i + 1 else sem i else sem

/-- A completed `sem_wait(&sem[i])`: the value goes down by one. -/
def sem_take (sem : Nat → Nat) (i : Nat) : Nat → Nat :=
  fun x => if x = i then sem x - 1 else sem x

/-- Bump an event counter for slot `i`. -/
def bump (cnt : Nat → Nat) (i : Nat) : Nat → Nat :=
  fun x => if x = i then cnt x + 1 else cnt x

/-- Bump the post counter of the slot addressed by `idx`, if one was found. -/
def bump_if_found (cnt : Nat → Nat) (idx : Int) : Nat → Nat :=
  if idx ≠ -1 then bump cnt idx.toNat else cnt

/-! ## Threads as state machines

Each thread is cut at its synchronisation operations; one step executes one
blocking operation or one section under `q_mutex` atomically (sleeps and prints
are folded into the following step).  A `sem_wait` is a step enabled only while
the semaphore is positive.  A chef that finds both queues empty enters
`pthread_cond_wait` and has no step until a `pthread_cond_broadcast` (made by a
customer after each push, and by a chef after freeing the register) or a spurious
wake-up returns it to the loop condition. -/

/-- Program points of `customer_thread`. -/
inductive CustPc where
  | dormant       -- before `sleep(c->arrival)`
  | active        -- before `sem_wait(&inside_sem)`
  | inside        -- "enters" printed; before `sem_wait(&sofa_sem)`
  | seated        -- "sits" printed; before the push onto `bake_q`
  | requested     -- pushed onto `bake_q`; before `sem_wait(&cake_ready[index])`
  | cakeReceived  -- before the push onto `pay_q`
  | paying        -- pushed onto `pay_q`; before `sem_wait(&pay_done[index])`
  | leaving       -- "leaves" printed; before `sem_post(&sofa_sem)`
  | sofaFreed     -- before `sem_post(&inside_sem)`
  | departed      -- returned
  deriving DecidableEq, Repr

/-- Program points of `chef_thread`. -/
inductive ChefPc where
  | idle                -- at the top of the loop, or woken: about to take `q_mutex`
  | waiting             -- blocked in `pthread_cond_wait` (mutex released)
  | paying (cid : Int)  -- popped `cid` from `pay_q`, register taken; before the post
  | paid                -- `pay_done` handled; before `cash_register_busy = 0`
  | baking (cid : Int)  -- popped `cid` from `bake_q`; before the post
  deriving DecidableEq, Repr

/-- Effect of a wake-up on one chef: a chef blocked in `pthread_cond_wait` returns
    from it and goes on to re-check the loop condition; others are unaffected. -/
def ChefPc.wake : ChefPc → ChefPc
  | ChefPc.waiting => ChefPc.idle
  | pc => pc

/-- Source: `pthread_cond_broadcast(&q_cond)`: every chef blocked on `q_cond` is woken. -/
def broadcast (chefs : List ChefPc) : List ChefPc :=
  chefs.map ChefPc.wake

/-- Shared state plus the program point of every thread.  The four `*_posts` /
    `*_waits` maps are history counters (not program variables): how many
    `sem_post`s were made on, and `sem_wait`s completed on, each slot. -/
structure State where
  bake_q : Queue
  pay_q : Queue
  cash_register_busy : Nat
  sofa_sem : Nat
  inside_sem : Nat
  cake_ready : Nat → Nat
  pay_done : Nat → Nat
  cust : List CustPc
  chef : List ChefPc
  cake_posts : Nat → Nat
  pay_posts : Nat → Nat
  cake_waits : Nat → Nat
  pay_waits : Nat → Nat

/-- State set up by `main` before the threads run: `sem_init` values, `q_init` on
    both (zero-initialised) queues, register free, every thread at its start. -/
def initState (cs : List Customer) (nchefs : Nat) : State :=
  { bake_q := q_init ⟨fun _ => 0, 0, 0, 0⟩
    pay_q := q_init ⟨fun _ => 0, 0, 0, 0⟩
    cash_register_busy := 0
    sofa_sem := SOFA_CAPACITY
    inside_sem := MAX_CAPACITY
    cake_ready := fun _ => 0
    pay_done := fun _ => 0
    cust := List.replicate cs.length CustPc.dormant
    chef := List.replicate nchefs ChefPc.idle
    cake_posts := fun _ => 0
    pay_posts := fun _ => 0
    cake_waits := fun _ => 0
    pay_waits := fun _ => 0 }

/-- One step of the thread of `customers[k]`; `none` when it is blocked or done. -/
def customer_step (cs : List Customer) (s : State) (k : Nat) : Option State :=
  match cs[k]?, s.cust[k]? with
  | some c, some pc =>
    match pc with
    | CustPc.dormant => some { s with cust := s.cust.set k CustPc.active }
    | CustPc.active =>
        if s.inside_sem = 0 then none
        else some { s with inside_sem := s.inside_sem - 1, cust := s.cust.set k CustPc.inside }
    | CustPc.inside =>
        if s.sofa_sem = 0 then none
        else some { s with sofa_sem := s.sofa_sem - 1, cust := s.cust.set k CustPc.seated }
    | CustPc.seated =>
        some { s with bake_q := q_push s.bake_q c.id, chef := broadcast s.chef,
                      cust := s.cust.set k CustPc.requested }
    | CustPc.requested =>
        if s.cake_ready c.index = 0 then none
        else some { s with cake_ready := sem_take s.cake_ready c.index,
                           cake_waits := bump s.cake_waits c.index,
                           cust := s.cust.set k CustPc.cakeReceived }
    | CustPc.cakeReceived =>
        some { s with pay_q := q_push s.pay_q c.id, chef := broadcast s.chef,
                      cust := s.cust.set k CustPc.paying }
    | CustPc.paying =>
        if s.pay_done c.index = 0 then none
        else some { s with pay_done := sem_take s.pay_done c.index,
                           pay_waits := bump s.pay_waits c.index,
                           cust := s.cust.set k CustPc.leaving }
    | CustPc.leaving =>
        some { s with sofa_sem := s.sofa_sem + 1, cust := s.cust.set k CustPc.sofaFreed }
    | CustPc.sofaFreed =>
        some { s with inside_sem := s.inside_sem + 1, cust := s.cust.set k CustPc.departed }
    | CustPc.departed => none
  | _, _ => none

/-- What a chef does in one pass through the section under `q_mutex`. -/
inductive ChefChoice where
  | wait              -- both queues empty: calls `pthread_cond_wait`
  | pay (cid : Int)   -- took `cid` from `pay_q` and the register
  | bake (cid : Int)  -- took `cid` from `bake_q`
  | retry             -- took nothing; unlocks and goes round the loop
  deriving DecidableEq, Repr

/-- The loop condition `pay_q.count == 0 && bake_q.count == 0` under which a chef
    blocks in `pthread_cond_wait`. -/
def chef_must_wait (s : State) : Bool :=
  s.pay_q.count == 0 && s.bake_q.count == 0

/-- The chef's section under `q_mutex`, from the wait loop to the unlock:
    the shared state afterwards and what was chosen. -/
def chef_select (s : State) : State × ChefChoice :=
  if chef_must_wait s then (s, ChefChoice.wait)
  else if s.pay_q.count > 0 ∧ s.cash_register_busy = 0 then
    ({ s with pay_q := (q_pop s.pay_q).2, cash_register_busy := 1 },
     ChefChoice.pay (q_pop s.pay_q).1)
  else if s.bake_q.count > 0 then
    ({ s with bake_q := (q_pop s.bake_q).2 }, ChefChoice.bake (q_pop s.bake_q).1)
  else (s, ChefChoice.retry)

/-- One step of chef `j`; `none` while it is blocked in `pthread_cond_wait`.
    An idle chef takes the mutex and evaluates the loop condition: with both queues
    empty it calls `pthread_cond_wait` and blocks until a broadcast (or a spurious
    wake-up, see `spurious_wake`); freeing the register ends with
    `pthread_cond_broadcast`. -/
def chef_step (cs : List Customer) (s : State) (j : Nat) : Option State :=
  match s.chef[j]? with
  | none => none
  | some ChefPc.idle =>
    match chef_select s with
    | (s1, ChefChoice.wait) => some { s1 with chef := s1.chef.set j ChefPc.waiting }
    | (s1, ChefChoice.pay cid) => some { s1 with chef := s1.chef.set j (ChefPc.paying cid) }
    | (s1, ChefChoice.bake cid) => some { s1 with chef := s1.chef.set j (ChefPc.baking cid) }
    | (s1, ChefChoice.retry) => some s1
  | some ChefPc.waiting => none
  | some (ChefPc.paying cid) =>
    some { s with pay_done := post_if_found s.pay_done (find_idx cs cid),
                  pay_posts := bump_if_found s.pay_posts (find_idx cs cid),
                  chef := s.chef.set j ChefPc.paid }
  | some ChefPc.paid =>
    some { s with cash_register_busy := 0, chef := broadcast (s.chef.set j ChefPc.idle) }
  | some (ChefPc.baking cid) =>
    some { s with cake_ready := post_if_found s.cake_ready (find_idx cs cid),
                  cake_posts := bump_if_found s.cake_posts (find_idx cs cid),
                  chef := s.chef.set j ChefPc.idle }

/-- A spurious wake-up of chef `j` (POSIX lets `pthread_cond_wait` return without a
    broadcast): the chef leaves the wait and will re-check the loop condition. -/
def spurious_wake (s : State) (j : Nat) : Option State :=
  match s.chef[j]? with
  | some ChefPc.waiting => some { s with chef := s.chef.set j ChefPc.idle }
  | _ => none

/-- Some customer or chef thread takes a step, or a waiting chef wakes spuriously. -/
def Step (cs : List Customer) (s s' : State) : Prop :=
  (∃ k, customer_step cs s k = some s') ∨ (∃ j, chef_step cs s j = some s') ∨
  (∃ j, spurious_wake s j = some s')

/-- States reachable from `initState` by any interleaving of thread steps. -/
inductive Reachable (cs : List Customer) (nchefs : Nat) : State → Prop where
  | init : Reachable cs nchefs (initState cs nchefs)
  | step {s s' : State} : Reachable cs nchefs s → Step cs s s' → Reachable cs nchefs s'

/-- A chef between taking the register and freeing it. -/
def ChefPc.holdsRegister : ChefPc → Bool
  | ChefPc.paying _ => true
  | ChefPc.paid => true
  | _ => false

/-- A customer holding a store permit (`inside_sem` acquired, not yet posted). -/
def CustPc.holdsInside : CustPc → Bool
  | CustPc.dormant => false
  | CustPc.active => false
  | CustPc.departed => false
  | _ => true

/-- A customer holding a sofa permit (`sofa_sem` acquired, not yet posted). -/
def CustPc.holdsSofa : CustPc → Bool
  | CustPc.seated => true
  | CustPc.requested => true
  | CustPc.cakeReceived => true
  | CustPc.paying => true
  | CustPc.leaving => true
  | _ => false

/-- What the scheduler can pick: the customer thread of `customers[k]`, chef `j`, or
    a spurious wake-up of chef `j`. -/
inductive Thread where
  | cust (k : Nat)
  | chef (j : Nat)
  | wake (j : Nat)
  deriving DecidableEq, Repr

/-- One step of the picked thread (or wake-up). -/
def thread_step (cs : List Customer) (s : State) : Thread → Option State
  | Thread.cust k => customer_step cs s k
  | Thread.chef j => chef_step cs s j
  | Thread.wake j => spurious_wake s j

/-- Execute a schedule (a list of threads, each taking one step in turn);
    `none` if a scheduled thread cannot step. -/
def run_schedule (cs : List Customer) : State → List Thread → Option State
  | s, [] => some s
  | s, t :: rest =>
    match thread_step cs s t with
    | none => none
    | some s1 => run_schedule cs s1 rest

/-! ## A concrete run used in examples: two customers, `NUM_CHEFS` chefs -/

/-- The loaded batch `0 Customer 1`, `0 Customer 2`. -/
def demoCustomers : List Customer := [⟨1, 0, 0⟩, ⟨2, 0, 1⟩]

/-- Customer 1 requests and receives its cake; customer 2 then requests a cake
    (bake queue `[2]`); customer 1 then queues to pay (pay queue `[1]`). -/
def prioSchedule : List Thread :=
  [Thread.cust 0, Thread.cust 0, Thread.cust 0, Thread.cust 0,
   Thread.chef 0, Thread.chef 0, Thread.cust 0,
   Thread.cust 1, Thread.cust 1, Thread.cust 1, Thread.cust 1,
   Thread.cust 0]

/-- The state after `prioSchedule`. -/
def prioState : State :=
  (run_schedule demoCustomers (initState demoCustomers NUM_CHEFS) prioSchedule).getD
    (initState demoCustomers NUM_CHEFS)

/-- Customer 1 gets its cake and queues to pay; customer 2 requests a cake; chef 0
    takes the payment of customer 1 and is still processing it; chef 1 bakes for
    customer 2, who then queues to pay.  Now the register is held, the pay queue is
    `[2]`, the bake queue is empty and chef 1 is idle. -/
def spinSchedule : List Thread :=
  [Thread.cust 0, Thread.cust 0, Thread.cust 0, Thread.cust 0,
   Thread.chef 0, Thread.chef 0, Thread.cust 0, Thread.cust 0,
   Thread.cust 1, Thread.cust 1, Thread.cust 1, Thread.cust 1,
   Thread.chef 0, Thread.chef 1, Thread.chef 1,
   Thread.cust 1, Thread.cust 1]

/-- The state after `spinSchedule`. -/
def spinState : State :=
  (run_schedule demoCustomers (initState demoCustomers NUM_CHEFS) spinSchedule).getD
    (initState demoCustomers NUM_CHEFS)

/-! ## Case view of the step functions

`CustCase` and `ChefCase` list, one constructor per branch, what `customer_step`
and `chef_step` do; `customer_step_cases` and `chef_step_cases` below show that
every successful step is one of these. -/

/-- The branches of `customer_step` for the thread of customer `c` at position `k`. -/
inductive CustCase (s : State) (k : Nat) (c : Customer) : State → Prop where
  | wake (h : s.cust[k]? = some CustPc.dormant) :
      CustCase s k c { s with cust := s.cust.set k CustPc.active }
  | enter (h : s.cust[k]? = some CustPc.active) (hs : s.inside_sem ≠ 0) :
      CustCase s k c
        { s with inside_sem := s.inside_sem - 1, cust := s.cust.set k CustPc.inside }
  | sit (h : s.cust[k]? = some CustPc.inside) (hs : s.sofa_sem ≠ 0) :
      CustCase s k c
        { s with sofa_sem := s.sofa_sem - 1, cust := s.cust.set k CustPc.seated }
  | request (h : s.cust[k]? = some CustPc.seated) :
      CustCase s k c
        { s with bake_q := q_push s.bake_q c.id, chef := broadcast s.chef,
                 cust := s.cust.set k CustPc.requested }
  | takeCake (h : s.cust[k]? = some CustPc.requested) (hs : s.cake_ready c.index ≠ 0) :
      CustCase s k c
        { s with cake_ready := sem_take s.cake_ready c.index,
                 cake_waits := bump s.cake_waits c.index,
                 cust := s.cust.set k CustPc.cakeReceived }
  | pay (h : s.cust[k]? = some CustPc.cakeReceived) :
      CustCase s k c
        { s with pay_q := q_push s.pay_q c.id, chef := broadcast s.chef,
                 cust := s.cust.set k CustPc.paying }
  | paid (h : s.cust[k]? = some CustPc.paying) (hs : s.pay_done c.index ≠ 0) :
      CustCase s k c
        { s with pay_done := sem_take s.pay_done c.index,
                 pay_waits := bump s.pay_waits c.index,
                 cust := s.cust.set k CustPc.leaving }
  | freeSofa (h : s.cust[k]? = some CustPc.leaving) :
      CustCase s k c
        { s with sofa_sem := s.sofa_sem + 1, cust := s.cust.set k CustPc.sofaFreed }
  | freeStore (h : s.cust[k]? = some CustPc.sofaFreed) :
      CustCase s k c
        { s with inside_sem := s.inside_sem + 1, cust := s.cust.set k CustPc.departed }

/-- The branches of `chef_step` for chef `j`, and its spurious wake-up. -/
inductive ChefCase (cs : List Customer) (s : State) (j : Nat) : State → Prop where
  | takePay (h : s.chef[j]? = some ChefPc.idle) (hp : s.pay_q.count > 0)
      (hr : s.cash_register_busy = 0) :
      ChefCase cs s j
        { s with pay_q := (q_pop s.pay_q).2, cash_register_busy := 1,
                 chef := s.chef.set j (ChefPc.paying (q_pop s.pay_q).1) }
  | takeBake (h : s.chef[j]? = some ChefPc.idle)
      (hn : ¬ (s.pay_q.count > 0 ∧ s.cash_register_busy = 0)) (hb : s.bake_q.count > 0) :
      ChefCase cs s j
        { s with bake_q := (q_pop s.bake_q).2,
                 chef := s.chef.set j (ChefPc.baking (q_pop s.bake_q).1) }
  | retry (h : s.chef[j]? = some ChefPc.idle) (hp : s.pay_q.count > 0)
      (hr : s.cash_register_busy ≠ 0) (hb : s.bake_q.count = 0) :
      ChefCase cs s j s
  | sleep (h : s.chef[j]? = some ChefPc.idle) (hp : s.pay_q.count = 0)
      (hb : s.bake_q.count = 0) :
      ChefCase cs s j { s with chef := s.chef.set j ChefPc.waiting }
  | postPay (cid : Int) (h : s.chef[j]? = some (ChefPc.paying cid)) :
      ChefCase cs s j
        { s with pay_done := post_if_found s.pay_done (find_idx cs cid),
                 pay_posts := bump_if_found s.pay_posts (find_idx cs cid),
                 chef := s.chef.set j ChefPc.paid }
  | freeRegister (h : s.chef[j]? = some ChefPc.paid) :
      ChefCase cs s j
        { s with cash_register_busy := 0, chef := broadcast (s.chef.set j ChefPc.idle) }
  | postCake (cid : Int) (h : s.chef[j]? = some (ChefPc.baking cid)) :
      ChefCase cs s j
        { s with cake_ready := post_if_found s.cake_ready (find_idx cs cid),
                 cake_posts := bump_if_found s.cake_posts (find_idx cs cid),
                 chef := s.chef.set j ChefPc.idle }
  | spurious (h : s.chef[j]? = some ChefPc.waiting) :
      ChefCase cs s j { s with chef := s.chef.set j ChefPc.idle }

/-! ## Invariants -/

/-- Register invariant: the flag counts the chefs that hold the register, and is 0 or 1. -/
def RegInv (s : State) : Prop :=
  s.cash_register_busy = s.chef.countP ChefPc.holdsRegister ∧ s.cash_register_busy ≤ 1

/-- Capacity invariant: available permits plus permits held add up to the capacity. -/
def CapInv (s : State) : Prop :=
  s.inside_sem + s.cust.countP CustPc.holdsInside = MAX_CAPACITY ∧
  s.sofa_sem + s.cust.countP CustPc.holdsSofa = SOFA_CAPACITY

/-! ## Load-time setup in `main`: reading, sorting, normalising -/

/-- One parsed input line `<ts> Customer <id>`. -/
structure Arrival where
  ts : Int
  id : Int
  deriving DecidableEq, Repr

/-- The read loop: each parsed line becomes
    `c->id = id; c->arrival = ts; c->index = num_customers; customers[num_customers++] = c;`
    The first argument is the current `num_customers`. -/
def load_customers : Nat → List Arrival → List Customer
  | _, [] => []
  | num_customers, r :: rest =>
      ⟨r.id, r.ts, num_customers⟩ :: load_customers (num_customers + 1) rest

/-- Body of the inner sort loop:
    `if (customers[j]->arrival < customers[i]->arrival) {
       tmp = customers[i]; customers[i] = customers[j]; customers[j] = tmp;
       customers[i]->index = i; customers[j]->index = j; }` -/
def sort_compare_swap (cs : List Customer) (i j : Nat) : List Customer :=
  match cs[i]?, cs[j]? with
  | some ci, some cj =>
      if cj.arrival < ci.arrival then
        (cs.set i { cj with index := i }).set j { ci with index := j }
      else cs
  | _, _ => cs

/-- Inner loop `for (j = i + 1; j < num_customers; j++)`. -/
def sort_inner (cs : List Customer) (i : Nat) : List Customer :=
  (List.range' (i + 1) (cs.length - (i + 1))).foldl (fun a j => sort_compare_swap a i j) cs

/-- Outer loop `for (i = 0; i < num_customers; i++)`. -/
def sort_by_arrival (cs : List Customer) : List Customer :=
  (List.range cs.length).foldl (fun a i => sort_inner a i) cs

/-- Source: `start_offset = customers[0]->arrival; g_start_offset = start_offset;
    for (i …) customers[i]->arrival -= start_offset;`
    Result: the customers and `g_start_offset`. -/
def normalize_arrivals (cs : List Customer) : List Customer × Int :=
  match cs with
  | [] => ([], 0)
  | c0 :: _ =>
      (cs.map (fun c => { c with arrival := toInt32 (c.arrival - c0.arrival) }), c0.arrival)

/-- The set-up part of `main` on the parsed lines: the final `customers` array and
    `g_start_offset` (with no customers `main` returns at once, offset still 0). -/
def main_setup (recs : List Arrival) : List Customer × Int :=
  normalize_arrivals (sort_by_arrival (load_customers 0 recs))

/-- Arrival time at position `k` (0 past the end). -/
def arrivalAt (cs : List Customer) (k : Nat) : Int :=
  match cs[k]? with
  | some c => c.arrival
  | none => 0

/-- Every customer's `index` field is its position in the array. -/
def IndexOk (cs : List Customer) : Prop :=
  ∀ (k : Nat) (c : Customer), cs[k]? = some c → c.index = k

/-- The `(arrival, id)` content of a customer, without the slot index. -/
def Customer.content (c : Customer) : Int × Int := (c.arrival, c.id)

/-- What the sort loops keep fixed relative to the array `cs0` they started from:
    the length, the `(arrival, id)` contents up to order, and `index` = position. -/
def SortBase (cs0 cs : List Customer) : Prop :=
  cs.length = cs0.length ∧
  (cs.map Customer.content).Perm (cs0.map Customer.content) ∧
  IndexOk cs

/-- Positions before `i` are final: each holds an arrival no later than every
    later position. -/
def SortedBefore (n i : Nat) (cs : List Customer) : Prop :=
  ∀ p q : Nat, p < i → p < q → q < n → arrivalAt cs p ≤ arrivalAt cs q

/-- Inner-loop invariant at `j`: position `i` holds the least arrival of `i..j-1`. -/
def MinSoFar (i j : Nat) (cs : List Customer) : Prop :=
  ∀ q : Nat, i < q → q < j → arrivalAt cs i ≤ arrivalAt cs q

/-- The loaded customers as the threads rely on them: `index` is the position, ids
    are pairwise different, and the array fits `MAXN`. -/
def WellFormed (cs : List Customer) : Prop :=
  IndexOk cs ∧ (cs.map Customer.id).Nodup ∧ cs.length ≤ MAXN

/-- Chef is baking for customer id `cid`. -/
def ChefPc.bakes (cid : Int) : ChefPc → Bool
  | ChefPc.baking c => decide (c = cid)
  | _ => false

/-- Chef is accepting the payment of customer id `cid` (post not yet made). -/
def ChefPc.pays (cid : Int) : ChefPc → Bool
  | ChefPc.paying c => decide (c = cid)
  | _ => false

/-- Customer has pushed its id onto `bake_q` (now or earlier). -/
def CustPc.hasRequested : CustPc → Bool
  | CustPc.dormant => false
  | CustPc.active => false
  | CustPc.inside => false
  | CustPc.seated => false
  | _ => true

/-- Customer has pushed its id onto `pay_q` (now or earlier). -/
def CustPc.hasQueuedToPay : CustPc → Bool
  | CustPc.paying => true
  | CustPc.leaving => true
  | CustPc.sofaFreed => true
  | CustPc.departed => true
  | _ => false

/-- One while the customer waits for its cake (request pending), else zero. -/
def CustPc.cakePending : CustPc → Nat
  | CustPc.requested => 1
  | _ => 0

/-- One while the customer waits for its payment to be accepted, else zero. -/
def CustPc.payPending : CustPc → Nat
  | CustPc.paying => 1
  | _ => 0

/-- Number of completed waits on `cake_ready` (0 or 1). -/
def CustPc.cakeWaited : CustPc → Nat
  | CustPc.cakeReceived => 1
  | CustPc.paying => 1
  | CustPc.leaving => 1
  | CustPc.sofaFreed => 1
  | CustPc.departed => 1
  | _ => 0

/-- Number of completed waits on `pay_done` (0 or 1); 1 from "leaves" on. -/
def CustPc.payWaited : CustPc → Nat
  | CustPc.leaving => 1
  | CustPc.sofaFreed => 1
  | CustPc.departed => 1
  | _ => 0

/-- Queue invariant: both ring buffers are well formed, there is one program point
    per customer, and a queue holds no more entries than customers have pushed. -/
def QInv (cs : List Customer) (s : State) : Prop :=
  s.bake_q.wf ∧ s.pay_q.wf ∧ s.cust.length = cs.length ∧
  s.bake_q.count ≤ s.cust.countP CustPc.hasRequested ∧
  s.pay_q.count ≤ s.cust.countP CustPc.hasQueuedToPay

/-- Every id in a queue or in a chef's hands is the id of a loaded customer. -/
def KnownInv (cs : List Customer) (s : State) : Prop :=
  (∀ v ∈ s.bake_q.toList, ∃ c ∈ cs, c.id = v) ∧
  (∀ v ∈ s.pay_q.toList, ∃ c ∈ cs, c.id = v) ∧
  (∀ (j : Nat) (cid : Int), s.chef[j]? = some (ChefPc.baking cid) → ∃ c ∈ cs, c.id = cid) ∧
  (∀ (j : Nat) (cid : Int), s.chef[j]? = some (ChefPc.paying cid) → ∃ c ∈ cs, c.id = cid)

/-- Per-customer accounting for customer `c` at program point `pc`: its id is in the
    bake queue, in a baking chef's hands or posted on `cake_ready` exactly while the
    request is pending (likewise for payment), and the history counters agree with
    the semaphore values and the program point. -/
def CustInv (s : State) (c : Customer) (pc : CustPc) : Prop :=
  s.bake_q.toList.count c.id + s.chef.countP (ChefPc.bakes c.id) + s.cake_ready c.index
    = pc.cakePending ∧
  s.pay_q.toList.count c.id + s.chef.countP (ChefPc.pays c.id) + s.pay_done c.index
    = pc.payPending ∧
  s.cake_posts c.index = s.cake_ready c.index + s.cake_waits c.index ∧
  s.cake_waits c.index = pc.cakeWaited ∧
  s.pay_posts c.index = s.pay_done c.index + s.pay_waits c.index ∧
  s.pay_waits c.index = pc.payWaited

/-- The accounting `CustInv` holds for every customer thread. -/
def TokInv (cs : List Customer) (s : State) : Prop :=
  ∀ (k : Nat) (c : Customer) (pc : CustPc),
    cs[k]? = some c → s.cust[k]? = some pc → CustInv s c pc

/-- The parsed lines `0 Customer 1`, `0 Customer 2`; `main_setup` turns them into
    `demoCustomers`. -/
def demoArrivals : List Arrival := [⟨0, 1⟩, ⟨0, 2⟩]

/-- A complete run: continues `spinSchedule` until both customers have departed. -/
def doneSchedule : List Thread :=
  spinSchedule ++
  [Thread.chef 0, Thread.chef 0, Thread.cust 0, Thread.cust 0, Thread.cust 0,
   Thread.chef 1, Thread.chef 1, Thread.chef 1,
   Thread.cust 1, Thread.cust 1, Thread.cust 1]

/-- The state after `doneSchedule`. -/
def doneState : State :=
  (run_schedule demoCustomers (initState demoCustomers NUM_CHEFS) doneSchedule).getD
    (initState demoCustomers NUM_CHEFS)

/-! ## Progress measure -/

/-- Synchronisation steps (its own and those made by chefs on its behalf) that a
    customer at this program point still needs before it has departed. -/
def CustPc.remaining : CustPc → Nat
  | CustPc.dormant => 14
  | CustPc.active => 13
  | CustPc.inside => 12
  | CustPc.seated => 11
  | CustPc.requested => 8
  | CustPc.cakeReceived => 7
  | CustPc.paying => 3
  | CustPc.leaving => 2
  | CustPc.sofaFreed => 1
  | CustPc.departed => 0

/-- Steps a chef still owes for the task it has in hand. -/
def ChefPc.remaining : ChefPc → Nat
  | ChefPc.idle => 0
  | ChefPc.waiting => 0
  | ChefPc.paying _ => 2
  | ChefPc.paid => 1
  | ChefPc.baking _ => 1

/-- Outstanding work: customers' remaining steps, chefs' tasks in hand, and two chef
    steps per queued bake request, three per queued payment. -/
def work (s : State) : Nat :=
  (s.cust.map CustPc.remaining).sum + (s.chef.map ChefPc.remaining).sum +
    2 * s.bake_q.count + 3 * s.pay_q.count

/-- No chef sleeps on `q_cond` while a queue holds work: every push is followed by
    a broadcast under the same lock. -/
def WaitInv (s : State) : Prop :=
  (∃ j : Nat, s.chef[j]? = some ChefPc.waiting) → s.pay_q.count = 0 ∧ s.bake_q.count = 0

/-- The pick is one of the threads of the run with `n` chefs (not a spurious wake-up). -/
def Thread.runs (cs : List Customer) (n : Nat) : Thread → Prop
  | Thread.cust k => k < cs.length
  | Thread.chef j => j < n
  | Thread.wake _ => False

/-- The picked thread has a step enabled that lowers the outstanding work. -/
def Progresses (cs : List Customer) (s : State) (t : Thread) : Prop :=
  ∃ s', thread_step cs s t = some s' ∧ work s' + 1 = work s

/-- An idle chef with something to take, or a chef with a task in hand. -/
def chefReady (s : State) (j : Nat) : Prop :=
  match s.chef[j]? with
  | some ChefPc.idle => (s.pay_q.count > 0 ∧ s.cash_register_busy = 0) ∨ s.bake_q.count > 0
  | some (ChefPc.paying _) => True
  | some ChefPc.paid => True
  | some (ChefPc.baking _) => True
  | _ => False

/-- The run from `s` under the infinite schedule `sched`: at tick `i` the scheduler
    picks `sched i`; a picked thread that is blocked leaves the state as it is. -/
def exec (cs : List Customer) (s : State) (sched : Nat → Thread) : Nat → State
  | 0 => s
  | i + 1 =>
    match thread_step cs (exec cs s sched i) (sched i) with
    | some s' => s'
    | none => exec cs s sched i

/-- Fair scheduling: every customer thread and every chef thread is picked again
    and again (spurious wake-ups may or may not occur). -/
def Fair (cs : List Customer) (n : Nat) (sched : Nat → Thread) : Prop :=
  ∀ t : Thread, t.runs cs n → ∀ i : Nat, ∃ k : Nat, i ≤ k ∧ sched k = t

/-- Every customer thread has returned. -/
def AllDeparted (s : State) : Prop :=
  ∀ (k : Nat) (pc : CustPc), s.cust[k]? = some pc → pc = CustPc.departed

/-- Round-robin over the two customers and four chefs of the demo batch. -/
def roundRobin (i : Nat) : Thread :=
  match i % 6 with
  | 0 => Thread.cust 0
  | 1 => Thread.cust 1
  | 2 => Thread.chef 0
  | 3 => Thread.chef 1
  | 4 => Thread.chef 2
  | _ => Thread.chef 3

/-! ### Queue lemmas -/

theorem getElem?_lt_length {α : Type} {l : List α} {k : Nat} {a : α} (h : l[k]? = some a) :
    k < l.length := by
  rcases Nat.lt_or_ge k l.length with hlt | hge
  · exact hlt
  · rw [List.getElem?_eq_none hge] at h; exact absurd h (by simp)

theorem q_init_wf (q : Queue) : (q_init q).wf := by
  simp [q_init, Queue.wf, MAXN]

theorem q_init_toList (q : Queue) : (q_init q).toList = [] := by
  simp [q_init, Queue.toList]

theorem q_push_count (q : Queue) (v : Int) : (q_push q v).count = q.count + 1 := rfl

theorem q_push_wf (q : Queue) (v : Int) (h : q.wf) (hc : q.count < MAXN) :
    (q_push q v).wf := by
  obtain ⟨hh, _, ht⟩ := h
  refine ⟨hh, hc, ?_⟩
  simp only [q_push, MAXN] at *
  split <;> omega

theorem q_push_toList (q : Queue) (v : Int) (h : q.wf) (hc : q.count < MAXN) :
    (q_push q v).toList = q.toList ++ [v] := by
  obtain ⟨hh, _, ht⟩ := h
  simp only [Queue.toList, q_push, List.range_succ, List.map_append, List.map_cons,
    List.map_nil]
  congr 1
  · apply List.map_congr_left
    intro i hi
    have hi' : i < q.count := List.mem_range.mp hi
    have : (q.head + i) % MAXN ≠ q.tail := by
      rw [ht]; simp only [MAXN] at *; omega
    simp [this]
  · simp [ht]

theorem q_pop_empty (q : Queue) (h : q.count = 0) : q_pop q = (-1, q) := by
  simp [q_pop, h]

theorem q_pop_count (q : Queue) : (q_pop q).2.count = q.count - 1 := by
  unfold q_pop; split
  · next h => simp [h]
  · rfl

theorem q_pop_wf (q : Queue) (h : q.wf) : (q_pop q).2.wf := by
  obtain ⟨hh, hc, ht⟩ := h
  unfold q_pop; split
  · exact ⟨hh, hc, ht⟩
  · next hne =>
    simp only [Queue.wf, MAXN] at *
    split <;> omega

theorem q_pop_eq (q : Queue) (hc : q.count ≠ 0) :
    q_pop q = (q.data q.head,
      { q with head := if q.head + 1 ≥ MAXN then 0 else q.head + 1, count := q.count - 1 }) := by
  simp [q_pop, hc]

theorem q_pop_toList (q : Queue) (h : q.wf) (hc : q.count ≠ 0) :
    q.toList = (q_pop q).1 :: (q_pop q).2.toList := by
  obtain ⟨hh, hcm, ht⟩ := h
  obtain ⟨n, hn⟩ := Nat.exists_eq_succ_of_ne_zero hc
  rw [q_pop_eq q hc]
  simp only [Queue.toList, hn, List.range_succ_eq_map, List.map_cons,
    List.map_map, Nat.succ_sub_one, Nat.add_zero]
  congr 1
  · rw [Nat.mod_eq_of_lt hh]
  · apply List.map_congr_left
    intro i hi
    have hi' : i < n := List.mem_range.mp hi
    simp only [Function.comp, MAXN] at *
    by_cases hw : q.head + 1 ≥ 1024
    · rw [if_pos hw]
      have : q.head = 1023 := by omega
      rw [this]; congr 1; omega
    · rw [if_neg hw]
      congr 1; omega

theorem neverOver_count (q : Queue) (ops : List Op) (h : neverOver q ops) : q.count ≤ MAXN := by
  cases ops with
  | nil => exact h
  | cons o rest => cases o <;> exact h.1

theorem runOps_refines (ops : List Op) :
    ∀ q : Queue, q.wf → neverOver q ops →
      (runOps q ops).2 = (listQueueRun q.toList ops).2 ∧
      (runOps q ops).1.toList = (listQueueRun q.toList ops).1 ∧
      (runOps q ops).1.wf := by
  induction ops with
  | nil => intro q hwf _; exact ⟨by simp [runOps, listQueueRun], by simp [runOps, listQueueRun], hwf⟩
  | cons o rest ih =>
    intro q hwf hb
    cases o with
    | push v =>
      have hlt : q.count < MAXN := by
        have := neverOver_count _ _ hb.2
        rw [q_push_count] at this; omega
      have := ih (q_push q v) (q_push_wf q v hwf hlt) hb.2
      rw [q_push_toList q v hwf hlt] at this
      simpa [runOps, listQueueRun] using this
    | pop =>
      have ih' := ih (q_pop q).2 (q_pop_wf q hwf) hb.2
      by_cases hc : q.count = 0
      · have hl : q.toList = [] := by simp [Queue.toList, hc]
        rw [q_pop_empty q hc] at ih'
        simp only [runOps, hc, if_true, q_pop_empty q hc, hl, listQueueRun] at ih' ⊢
        exact ih'
      · have hl := q_pop_toList q hwf hc
        simp only [runOps, hc, if_false, hl, listQueueRun]
        exact ⟨by rw [ih'.1], ih'.2.1, ih'.2.2⟩

theorem listQueueRun_conserves (ops : List Op) :
    ∀ l : List Int,
      (listQueueRun l ops).2 ++ (listQueueRun l ops).1 = l ++ pushedValues ops := by
  induction ops with
  | nil => intro l; simp [listQueueRun, pushedValues]
  | cons o rest ih =>
    intro l
    cases o with
    | push v => simpa [listQueueRun, pushedValues] using ih (l ++ [v])
    | pop =>
      cases l with
      | nil => simpa [listQueueRun, pushedValues] using ih []
      | cons x l => simpa [listQueueRun, pushedValues] using ih l

/-- C3: starting from `q_init`, along any sequence of `q_push` / `q_pop` calls during
    which the queue never holds more than `MAXN` entries, the ring buffer returns from
    its successful pops exactly what the reference list queue returns, and the popped
    values followed by the entries still queued are the pushed values in push order
    (so the popped values are an initial segment of the pushes, and the `k`-th
    successful pop returns the `k`-th pushed value: first in, first out). -/
theorem q_fifo_refines_list_queue (q0 : Queue) (ops : List Op)
    (h : neverOver (q_init q0) ops) :
    (runOps (q_init q0) ops).2 = (listQueueRun [] ops).2 ∧
    (runOps (q_init q0) ops).1.toList = (listQueueRun [] ops).1 ∧
    (runOps (q_init q0) ops).2 ++ (runOps (q_init q0) ops).1.toList = pushedValues ops ∧
    (runOps (q_init q0) ops).2 =
      (pushedValues ops).take (runOps (q_init q0) ops).2.length ∧
    (∀ (k : Nat) (v : Int), (runOps (q_init q0) ops).2[k]? = some v →
      (pushedValues ops)[k]? = some v) := by
  have hr := runOps_refines ops (q_init q0) (q_init_wf q0) h
  rw [q_init_toList] at hr
  have hc := listQueueRun_conserves ops []
  rw [← hr.1, ← hr.2.1] at hc
  simp only [List.nil_append] at hc
  refine ⟨hr.1, hr.2.1, hc, ?_, ?_⟩
  · rw [← hc]; simp
  · intro k v hk
    rw [← hc, List.getElem?_append_left (getElem?_lt_length hk)]
    exact hk

/-- Witness for C3: push 7, push 8, pop, push 9, pop on a fresh queue returns 7 then 8. -/
theorem q_fifo_refines_list_queue_witness :
    neverOver (q_init ⟨fun _ => 0, 5, 6, 7⟩)
      [Op.push 7, Op.push 8, Op.pop, Op.push 9, Op.pop] ∧
    (runOps (q_init ⟨fun _ => 0, 5, 6, 7⟩)
      [Op.push 7, Op.push 8, Op.pop, Op.push 9, Op.pop]).2 = [7, 8] :=
  ⟨by simp [neverOver, q_init, q_push, q_pop, MAXN],
   by
    have h := q_fifo_refines_list_queue ⟨fun _ => 0, 5, 6, 7⟩
      [Op.push 7, Op.push 8, Op.pop, Op.push 9, Op.pop]
      (by simp [neverOver, q_init, q_push, q_pop, MAXN])
    rw [h.1]; decide⟩

/-! ### Clock lemmas -/

theorem toInt32_of_fits (x : Int) (h : fitsInt32 x) : toInt32 x = x := by
  unfold fitsInt32 at h
  unfold toInt32
  omega

theorem seconds_since_start_exact (t0 t : Timeval) (h0 : t0.valid) (h : t.valid)
    (hf : fitsInt32 (elapsedSeconds t0 t)) :
    seconds_since_start t0 t = elapsedSeconds t0 t := by
  have key : (if t.tv_usec - t0.tv_usec < 0 then t.tv_sec - t0.tv_sec - 1
      else t.tv_sec - t0.tv_sec) = elapsedSeconds t0 t := by
    unfold Timeval.valid at h0 h
    unfold elapsedSeconds Timeval.micros
    split <;> omega
  unfold seconds_since_start
  simp only [key]
  exact toInt32_of_fits _ hf

/-- C8 as stated fails: with start time 0 s, readings 0 s and 1 s, and print offset
    `2147483647` (the largest `int`, a possible earliest arrival time), `now_ts` is
    `2147483647` at the first reading and `-2147483648` at the second: it is not
    elapsed seconds plus offset, and it decreases.  Likewise, with offset 0, a reading
    `2147483648` s after the start is narrowed by `(int)sec` to `-2147483648`. -/
theorem now_ts_int_overflow_counterexample :
    (⟨0, 0⟩ : Timeval).valid ∧ (⟨1, 0⟩ : Timeval).valid ∧
    (⟨0, 0⟩ : Timeval).micros ≤ (⟨0, 0⟩ : Timeval).micros ∧
    (⟨0, 0⟩ : Timeval).micros ≤ (⟨1, 0⟩ : Timeval).micros ∧
    now_ts ⟨0, 0⟩ ⟨0, 0⟩ 2147483647 = 2147483647 ∧
    now_ts ⟨0, 0⟩ ⟨1, 0⟩ 2147483647 = -2147483648 ∧
    now_ts ⟨0, 0⟩ ⟨1, 0⟩ 2147483647 ≠ elapsedSeconds ⟨0, 0⟩ ⟨1, 0⟩ + 2147483647 ∧
    ¬ (now_ts ⟨0, 0⟩ ⟨0, 0⟩ 2147483647 ≤ now_ts ⟨0, 0⟩ ⟨1, 0⟩ 2147483647) ∧
    now_ts ⟨0, 0⟩ ⟨2147483648, 0⟩ 0 = -2147483648 ∧
    ¬ (now_ts ⟨0, 0⟩ ⟨0, 0⟩ 0 ≤ now_ts ⟨0, 0⟩ ⟨2147483648, 0⟩ 0) := by
  decide

/-- C8 (amended): for a start time `t0` and readings `t1 <= t2` not before `t0`, all with
    `0 <= tv_usec < 1000000`, whenever the elapsed whole seconds at `t2` and the sums of
    elapsed seconds and `g_start_offset` at both readings are representable as `int`,
    `now_ts` returns `floor((t - t0) / 1 s) + g_start_offset` at both readings and is
    non-decreasing from `t1` to `t2`. -/
theorem now_ts_elapsed_plus_offset_monotone (t0 t1 t2 : Timeval) (off : Int)
    (h0 : t0.valid) (h1 : t1.valid) (h2 : t2.valid)
    (h01 : t0.micros ≤ t1.micros) (h12 : t1.micros ≤ t2.micros)
    (hf2 : fitsInt32 (elapsedSeconds t0 t2))
    (hs1 : fitsInt32 (elapsedSeconds t0 t1 + off))
    (hs2 : fitsInt32 (elapsedSeconds t0 t2 + off)) :
    now_ts t0 t1 off = elapsedSeconds t0 t1 + off ∧
    now_ts t0 t2 off = elapsedSeconds t0 t2 + off ∧
    0 ≤ elapsedSeconds t0 t1 ∧
    now_ts t0 t1 off ≤ now_ts t0 t2 off := by
  have hmono : elapsedSeconds t0 t1 ≤ elapsedSeconds t0 t2 := by
    unfold elapsedSeconds
    exact Int.ediv_le_ediv (by norm_num) (by omega)
  have hnn : 0 ≤ elapsedSeconds t0 t1 := by
    unfold elapsedSeconds
    exact Int.ediv_nonneg (by omega) (by norm_num)
  have hf1 : fitsInt32 (elapsedSeconds t0 t1) := by
    unfold fitsInt32 at hf2 ⊢
    omega
  have e1 : now_ts t0 t1 off = elapsedSeconds t0 t1 + off := by
    unfold now_ts
    rw [seconds_since_start_exact t0 t1 h0 h1 hf1, toInt32_of_fits _ hs1]
  have e2 : now_ts t0 t2 off = elapsedSeconds t0 t2 + off := by
    unfold now_ts
    rw [seconds_since_start_exact t0 t2 h0 h2 hf2, toInt32_of_fits _ hs2]
  exact ⟨e1, e2, hnn, by rw [e1, e2]; omega⟩

/-- Witness for the amended C8: start 10.900000 s, readings 12.100000 s and 13.050000 s,
    offset 5 give timestamps 6 and 7. -/
theorem now_ts_elapsed_plus_offset_monotone_witness :
    now_ts ⟨10, 900000⟩ ⟨12, 100000⟩ 5 = 6 ∧ now_ts ⟨10, 900000⟩ ⟨13, 50000⟩ 5 = 7 := by
  have h := now_ts_elapsed_plus_offset_monotone ⟨10, 900000⟩ ⟨12, 100000⟩ ⟨13, 50000⟩ 5
    (by decide) (by decide) (by decide) (by decide) (by decide)
    (by decide) (by decide) (by decide)
  exact ⟨by rw [h.1]; decide, by rw [h.2.1]; decide⟩

/-! ### Schedules and reachability -/

theorem step_of_thread_step {cs : List Customer} {s s' : State} {t : Thread}
    (h : thread_step cs s t = some s') : Step cs s s' := by
  cases t with
  | cust k => exact Or.inl ⟨k, h⟩
  | chef j => exact Or.inr (Or.inl ⟨j, h⟩)
  | wake j => exact Or.inr (Or.inr ⟨j, h⟩)

theorem reachable_of_run_schedule {cs : List Customer} {n : Nat} (sched : List Thread) :
    ∀ {s s' : State}, Reachable cs n s → run_schedule cs s sched = some s' →
      Reachable cs n s' := by
  induction sched with
  | nil =>
    intro s s' hr h
    simp only [run_schedule, Option.some.injEq] at h
    exact h ▸ hr
  | cons t rest ih =>
    intro s s' hr h
    simp only [run_schedule] at h
    split at h
    · exact absurd h (by simp)
    · next s1 hs1 => exact ih (Reachable.step hr (step_of_thread_step hs1)) h

/-! ### The chef's choice under the queue lock -/

theorem chef_select_pay (s : State) (hp : s.pay_q.count > 0) (hr : s.cash_register_busy = 0) :
    chef_select s = ({ s with pay_q := (q_pop s.pay_q).2, cash_register_busy := 1 },
      ChefChoice.pay (q_pop s.pay_q).1) := by
  have h1 : chef_must_wait s = false := by
    simp only [chef_must_wait, Bool.and_eq_false_imp, beq_iff_eq]
    intro h; omega
  unfold chef_select
  rw [h1]
  simp [hp, hr]

theorem chef_select_retry (s : State) (hp : s.pay_q.count > 0)
    (hr : s.cash_register_busy ≠ 0) (hb : s.bake_q.count = 0) :
    chef_select s = (s, ChefChoice.retry) ∧ chef_must_wait s = false := by
  have h1 : chef_must_wait s = false := by
    simp only [chef_must_wait, Bool.and_eq_false_imp, beq_iff_eq]
    intro h; omega
  unfold chef_select
  rw [h1]
  simp [hr, hb]

/-- C2: when an idle chef runs its locked section in a state whose pay queue is
    non-empty and whose register is free, it removes the head entry of the pay queue
    (the cell at `head`; for a well-formed ring buffer the first element of the queue
    as a list), sets the register flag to 1, moves on to process that payment, and
    leaves the bake queue exactly as it was, whatever the bake queue holds. -/
theorem chef_prefers_payment (cs : List Customer) (s : State) (j : Nat)
    (hj : s.chef[j]? = some ChefPc.idle)
    (hp : s.pay_q.count > 0) (hr : s.cash_register_busy = 0) :
    ∃ s',
      chef_step cs s j = some s' ∧
      chef_select s = ({ s with pay_q := (q_pop s.pay_q).2, cash_register_busy := 1 },
        ChefChoice.pay (s.pay_q.data s.pay_q.head)) ∧
      s'.chef[j]? = some (ChefPc.paying (s.pay_q.data s.pay_q.head)) ∧
      s'.pay_q = (q_pop s.pay_q).2 ∧
      s'.pay_q.count + 1 = s.pay_q.count ∧
      s'.cash_register_busy = 1 ∧
      s'.bake_q = s.bake_q ∧
      (s.pay_q.wf → s.pay_q.toList = s.pay_q.data s.pay_q.head :: s'.pay_q.toList) := by
  have hne : s.pay_q.count ≠ 0 := by omega
  have hv : (q_pop s.pay_q).1 = s.pay_q.data s.pay_q.head := by rw [q_pop_eq _ hne]
  have hsel := chef_select_pay s hp hr
  have hlen : j < s.chef.length := getElem?_lt_length hj
  refine ⟨{ s with pay_q := (q_pop s.pay_q).2, cash_register_busy := 1,
                   chef := s.chef.set j (ChefPc.paying (q_pop s.pay_q).1) },
    ?_, ?_, ?_, rfl, ?_, rfl, rfl, ?_⟩
  · simp only [chef_step, hj, hsel]
  · rw [hsel, hv]
  · simp [hlen, hv]
  · simp only [q_pop_count]; omega
  · intro hwf
    have hl := q_pop_toList s.pay_q hwf hne
    rw [hv] at hl
    exact hl

/-- Witness for C2: after `prioSchedule` the bake queue holds customer 2 (queued first)
    and the pay queue holds customer 1; chef 0 takes the payment of customer 1 and the
    bake queue still holds customer 2. -/
theorem chef_prefers_payment_witness :
    prioState.bake_q.toList = [2] ∧ prioState.pay_q.toList = [1] ∧
    prioState.pay_q.data prioState.pay_q.head = 1 ∧
    ∃ s',
      chef_step demoCustomers prioState 0 = some s' ∧
      chef_select prioState =
        ({ prioState with pay_q := (q_pop prioState.pay_q).2, cash_register_busy := 1 },
          ChefChoice.pay (prioState.pay_q.data prioState.pay_q.head)) ∧
      s'.chef[0]? = some (ChefPc.paying (prioState.pay_q.data prioState.pay_q.head)) ∧
      s'.pay_q = (q_pop prioState.pay_q).2 ∧
      s'.pay_q.count + 1 = prioState.pay_q.count ∧
      s'.cash_register_busy = 1 ∧
      s'.bake_q = prioState.bake_q ∧
      (prioState.pay_q.wf →
        prioState.pay_q.toList = prioState.pay_q.data prioState.pay_q.head :: s'.pay_q.toList) :=
  ⟨by decide, by decide, by decide,
   chef_prefers_payment demoCustomers prioState 0 (by decide) (by decide) (by decide)⟩

theorem prioState_reachable : Reachable demoCustomers NUM_CHEFS prioState :=
  reachable_of_run_schedule prioSchedule Reachable.init (by rfl)

theorem spinState_reachable : Reachable demoCustomers NUM_CHEFS spinState :=
  reachable_of_run_schedule spinSchedule Reachable.init (by rfl)

/-- C10 (code evaluated at the failing state): in the reachable state `spinState`
    (four chefs, chef 0 processing a payment) chef 1 is idle, the pay queue holds one
    entry, the register is held and the bake queue is empty.  The locked section of
    chef 1 takes nothing and changes nothing, but the wait condition of the loop is
    false there, so the chef is not blocked: its step is enabled and leads back to the
    very same state, again and again. -/
theorem chef_spins_when_register_held :
    Reachable demoCustomers NUM_CHEFS spinState ∧
    spinState.chef[1]? = some ChefPc.idle ∧
    spinState.pay_q.toList = [2] ∧
    spinState.cash_register_busy = 1 ∧
    spinState.bake_q.toList = [] ∧
    chef_select spinState = (spinState, ChefChoice.retry) ∧
    chef_must_wait spinState = false ∧
    chef_step demoCustomers spinState 1 = some spinState ∧
    run_schedule demoCustomers spinState [Thread.chef 1, Thread.chef 1, Thread.chef 1]
      = some spinState := by
  have hsel := chef_select_retry spinState (by decide) (by decide) (by decide)
  have hstep : chef_step demoCustomers spinState 1 = some spinState := by
    have hj : spinState.chef[1]? = some ChefPc.idle := by decide
    simp only [chef_step, hj, hsel.1]
  refine ⟨spinState_reachable, by decide, by decide, by decide, by decide, hsel.1, hsel.2,
    hstep, ?_⟩
  simp only [run_schedule, thread_step, hstep]

/-! ### Guarded post when no slot is found -/

theorem post_if_found_none (sem : Nat → Nat) : post_if_found sem (-1) = sem := by
  simp [post_if_found]

theorem bump_if_found_none (cnt : Nat → Nat) : bump_if_found cnt (-1) = cnt := by
  simp [bump_if_found]

/-! ### Case analysis of steps -/

theorem customer_step_cases {cs : List Customer} {s s' : State} {k : Nat}
    (h : customer_step cs s k = some s') :
    ∃ c, cs[k]? = some c ∧ CustCase s k c s' := by
  unfold customer_step at h
  split at h
  · next c pc hc hpc =>
    refine ⟨c, hc, ?_⟩
    cases pc <;> simp only [] at h
    · cases h; exact CustCase.wake hpc
    · split at h
      · exact absurd h (by simp)
      · next hs => cases h; exact CustCase.enter hpc hs
    · split at h
      · exact absurd h (by simp)
      · next hs => cases h; exact CustCase.sit hpc hs
    · cases h; exact CustCase.request hpc
    · split at h
      · exact absurd h (by simp)
      · next hs => cases h; exact CustCase.takeCake hpc hs
    · cases h; exact CustCase.pay hpc
    · split at h
      · exact absurd h (by simp)
      · next hs => cases h; exact CustCase.paid hpc hs
    · cases h; exact CustCase.freeSofa hpc
    · cases h; exact CustCase.freeStore hpc
    · exact absurd h (by simp)
  · exact absurd h (by simp)

theorem chef_step_cases {cs : List Customer} {s s' : State} {j : Nat}
    (h : chef_step cs s j = some s') : ChefCase cs s j s' := by
  unfold chef_step at h
  split at h
  · exact absurd h (by simp)
  · next hj =>
    unfold chef_select at h
    by_cases hw : chef_must_wait s = true
    · have hw' : s.pay_q.count = 0 ∧ s.bake_q.count = 0 := by
        simpa [chef_must_wait] using hw
      simp only [hw, if_true] at h
      cases h
      exact ChefCase.sleep hj hw'.1 hw'.2
    · have hw' : ¬ (s.pay_q.count = 0 ∧ s.bake_q.count = 0) := by
        simpa [chef_must_wait] using hw
      simp only [hw, if_false] at h
      by_cases hp : s.pay_q.count > 0 ∧ s.cash_register_busy = 0
      · simp only [hp, and_self, if_true] at h
        cases h
        exact ChefCase.takePay hj hp.1 hp.2
      · simp only [hp, if_false] at h
        by_cases hb : s.bake_q.count > 0
        · simp only [hb, if_true] at h
          cases h
          exact ChefCase.takeBake hj hp hb
        · simp only [hb, if_false] at h
          cases h
          have hb0 : s.bake_q.count = 0 := by omega
          have hp0 : s.pay_q.count > 0 := by omega
          exact ChefCase.retry hj hp0 (fun h0 => hp ⟨hp0, h0⟩) hb0
  · exact absurd h (by simp)
  · next cid hj => cases h; exact ChefCase.postPay cid hj
  · next hj => cases h; exact ChefCase.freeRegister hj
  · next cid hj => cases h; exact ChefCase.postCake cid hj

theorem spurious_wake_cases {cs : List Customer} {s s' : State} {j : Nat}
    (h : spurious_wake s j = some s') : ChefCase cs s j s' := by
  unfold spurious_wake at h
  split at h
  · next hj => cases h; exact ChefCase.spurious hj
  · exact absurd h (by simp)

theorem step_cases {cs : List Customer} {s s' : State} (h : Step cs s s') :
    (∃ (k : Nat) (c : Customer), cs[k]? = some c ∧ CustCase s k c s') ∨
    (∃ j : Nat, ChefCase cs s j s') := by
  rcases h with ⟨k, hk⟩ | ⟨j, hj⟩ | ⟨j, hj⟩
  · obtain ⟨c, hck, hc⟩ := customer_step_cases hk
    exact Or.inl ⟨k, c, hck, hc⟩
  · exact Or.inr ⟨j, chef_step_cases hj⟩
  · exact Or.inr ⟨j, spurious_wake_cases hj⟩

/-! ### Waking chefs -/

theorem wake_ne_waiting (a : ChefPc) : a.wake ≠ ChefPc.waiting := by
  cases a <;> simp [ChefPc.wake]

theorem broadcast_length (l : List ChefPc) : (broadcast l).length = l.length := by
  simp [broadcast]

theorem broadcast_getElem? {l : List ChefPc} {j : Nat} {a : ChefPc}
    (h : (broadcast l)[j]? = some a) :
    a ≠ ChefPc.waiting ∧ (l[j]? = some a ∨ (l[j]? = some ChefPc.waiting ∧ a = ChefPc.idle)) := by
  unfold broadcast at h
  rw [List.getElem?_map] at h
  cases hb : l[j]? with
  | none => rw [hb] at h; exact absurd h (by simp)
  | some b =>
    rw [hb] at h
    simp only [Option.map_some', Option.some.injEq] at h
    subst h
    refine ⟨wake_ne_waiting b, ?_⟩
    cases b <;> simp [ChefPc.wake]

theorem broadcast_getElem?_of_ne_idle {l : List ChefPc} {j : Nat} {a : ChefPc}
    (h : (broadcast l)[j]? = some a) (ha : a ≠ ChefPc.idle) : l[j]? = some a := by
  rcases (broadcast_getElem? h).2 with h1 | ⟨_, h2⟩
  · exact h1
  · exact absurd h2 ha

theorem countP_broadcast (p : ChefPc → Bool) (hp : p ChefPc.waiting = p ChefPc.idle)
    (l : List ChefPc) : (broadcast l).countP p = l.countP p := by
  induction l with
  | nil => rfl
  | cons a l ih =>
    have ha : p a.wake = p a := by
      cases a <;> simp [ChefPc.wake, hp]
    simp only [broadcast, List.map_cons, List.countP_cons] at ih ⊢
    rw [ih, ha]

theorem sum_remaining_broadcast (l : List ChefPc) :
    ((broadcast l).map ChefPc.remaining).sum = (l.map ChefPc.remaining).sum := by
  induction l with
  | nil => rfl
  | cons a l ih =>
    have ha : a.wake.remaining = a.remaining := by
      cases a <;> rfl
    simp only [broadcast, List.map_cons, List.sum_cons] at ih ⊢
    rw [ih, ha]

/-! ### Counting under a single update -/

theorem countP_set_of_getElem? {α : Type} (p : α → Bool) :
    ∀ (l : List α) (k : Nat) (a x : α), l[k]? = some a →
      (l.set k x).countP p + (if p a then 1 else 0) =
        l.countP p + (if p x then 1 else 0) := by
  intro l
  induction l with
  | nil => intro k a x h; simp at h
  | cons y l ih =>
    intro k a x h
    cases k with
    | zero =>
      simp only [List.getElem?_cons_zero, Option.some.injEq] at h
      subst h
      simp only [List.set_cons_zero, List.countP_cons]
      omega
    | succ k =>
      simp only [List.getElem?_cons_succ] at h
      have := ih k a x h
      simp only [List.set_cons_succ, List.countP_cons]
      omega

theorem countP_replicate_false {α : Type} (p : α → Bool) (a : α) (n : Nat)
    (h : p a = false) : (List.replicate n a).countP p = 0 := by
  induction n with
  | zero => simp
  | succ n ih => simp [List.replicate_succ, List.countP_cons, ih, h]

theorem exists_of_countP_pos {α : Type} (p : α → Bool) :
    ∀ l : List α, 0 < l.countP p → ∃ (j : Nat) (a : α), l[j]? = some a ∧ p a = true := by
  intro l
  induction l with
  | nil => intro h; simp at h
  | cons y l ih =>
    intro h
    by_cases hy : p y = true
    · exact ⟨0, y, by simp, hy⟩
    · simp only [List.countP_cons, hy, if_false, Nat.add_zero] at h
      obtain ⟨j, a, hj, ha⟩ := ih (by simpa using h)
      exact ⟨j + 1, a, by simpa using hj, ha⟩

theorem countP_pos_of_getElem? {α : Type} (p : α → Bool) :
    ∀ (l : List α) (j : Nat) (a : α), l[j]? = some a → p a = true → 0 < l.countP p := by
  intro l j a hj ha
  have hmem : a ∈ l := List.getElem?_mem hj
  exact List.countP_pos_iff.mpr ⟨a, hmem, ha⟩

/-! ### Register invariant (mutual exclusion) -/

theorem regInv_init (cs : List Customer) (n : Nat) : RegInv (initState cs n) := by
  constructor
  · simp only [initState]
    rw [countP_replicate_false _ _ _ rfl]
  · simp [initState]

theorem regInv_step {cs : List Customer} {s s' : State} (hi : RegInv s)
    (hstep : Step cs s s') : RegInv s' := by
  obtain ⟨h1, h2⟩ := hi
  have hbc := countP_broadcast ChefPc.holdsRegister rfl
  rcases step_cases hstep with ⟨k, c, _, hc⟩ | ⟨j, hc⟩
  · cases hc with
    | wake h => exact ⟨h1, h2⟩
    | enter h hs => exact ⟨h1, h2⟩
    | sit h hs => exact ⟨h1, h2⟩
    | request h => exact ⟨by simp only [hbc]; exact h1, h2⟩
    | takeCake h hs => exact ⟨h1, h2⟩
    | pay h => exact ⟨by simp only [hbc]; exact h1, h2⟩
    | paid h hs => exact ⟨h1, h2⟩
    | freeSofa h => exact ⟨h1, h2⟩
    | freeStore h => exact ⟨h1, h2⟩
  · cases hc with
    | takePay h hp hr =>
      have := countP_set_of_getElem? ChefPc.holdsRegister s.chef j _
        (ChefPc.paying (q_pop s.pay_q).1) h
      simp only [ChefPc.holdsRegister] at this
      simp only [RegInv]
      constructor <;> (simp at this ⊢; try omega)
    | takeBake h hn hb =>
      have := countP_set_of_getElem? ChefPc.holdsRegister s.chef j _
        (ChefPc.baking (q_pop s.bake_q).1) h
      simp only [ChefPc.holdsRegister] at this
      simp only [RegInv]
      constructor <;> (simp at this ⊢; try omega)
    | retry h hp hr hb => exact ⟨h1, h2⟩
    | sleep h hp hb =>
      have := countP_set_of_getElem? ChefPc.holdsRegister s.chef j _ ChefPc.waiting h
      simp only [ChefPc.holdsRegister] at this
      simp only [RegInv]
      constructor <;> (simp at this ⊢; try omega)
    | postPay cid h =>
      have := countP_set_of_getElem? ChefPc.holdsRegister s.chef j _ ChefPc.paid h
      simp only [ChefPc.holdsRegister] at this
      simp only [RegInv]
      constructor <;> (simp at this ⊢; try omega)
    | freeRegister h =>
      have := countP_set_of_getElem? ChefPc.holdsRegister s.chef j _ ChefPc.idle h
      simp only [ChefPc.holdsRegister] at this
      simp only [RegInv, hbc]
      constructor <;> (simp at this ⊢; try omega)
    | postCake cid h =>
      have := countP_set_of_getElem? ChefPc.holdsRegister s.chef j _ ChefPc.idle h
      simp only [ChefPc.holdsRegister] at this
      simp only [RegInv]
      constructor <;> (simp at this ⊢; try omega)
    | spurious h =>
      have := countP_set_of_getElem? ChefPc.holdsRegister s.chef j _ ChefPc.idle h
      simp only [ChefPc.holdsRegister] at this
      simp only [RegInv]
      constructor <;> (simp at this ⊢; try omega)

theorem regInv_reachable {cs : List Customer} {n : Nat} {s : State}
    (h : Reachable cs n s) : RegInv s := by
  induction h with
  | init => exact regInv_init cs n
  | step _ hstep ih => exact regInv_step ih hstep

theorem two_le_countP_of_two {α : Type} (p : α → Bool) :
    ∀ (l : List α) (i j : Nat) (a b : α), i < j → l[i]? = some a → l[j]? = some b →
      p a = true → p b = true → 2 ≤ l.countP p := by
  intro l
  induction l with
  | nil => intro i j a b _ h; simp at h
  | cons y l ih =>
    intro i j a b hij hi hj ha hb
    cases j with
    | zero => omega
    | succ j =>
      simp only [List.getElem?_cons_succ] at hj
      cases i with
      | zero =>
        simp only [List.getElem?_cons_zero, Option.some.injEq] at hi
        subst hi
        have := countP_pos_of_getElem? p l j b hj hb
        simp only [List.countP_cons, ha, if_true]
        omega
      | succ i =>
        simp only [List.getElem?_cons_succ] at hi
        have := ih i j a b (by omega) hi hj ha hb
        simp only [List.countP_cons]
        omega

/-- C1: in every state reachable from the initial state by any interleaving of customer
    and chef steps (sections under `q_mutex` atomic), at most one chef is between
    "pop pay queue, set `cash_register_busy = 1`" and "set `cash_register_busy = 0`",
    and `cash_register_busy` is 1 exactly when such a chef exists (and 0 otherwise). -/
theorem register_mutual_exclusion (cs : List Customer) (n : Nat) (s : State)
    (h : Reachable cs n s) :
    s.chef.countP ChefPc.holdsRegister ≤ 1 ∧
    (∀ (i j : Nat) (a b : ChefPc), s.chef[i]? = some a → s.chef[j]? = some b →
      a.holdsRegister = true → b.holdsRegister = true → i = j) ∧
    (s.cash_register_busy = 1 ↔
      ∃ (j : Nat) (a : ChefPc), s.chef[j]? = some a ∧ a.holdsRegister = true) ∧
    (s.cash_register_busy = 0 ∨ s.cash_register_busy = 1) := by
  obtain ⟨h1, h2⟩ := regInv_reachable h
  have hle : s.chef.countP ChefPc.holdsRegister ≤ 1 := by omega
  refine ⟨hle, ?_, ?_, by omega⟩
  · intro i j a b hi hj ha hb
    rcases Nat.lt_trichotomy i j with hlt | heq | hgt
    · have := two_le_countP_of_two ChefPc.holdsRegister s.chef i j a b hlt hi hj ha hb
      omega
    · exact heq
    · have := two_le_countP_of_two ChefPc.holdsRegister s.chef j i b a hgt hj hi hb ha
      omega
  · constructor
    · intro hb
      exact exists_of_countP_pos ChefPc.holdsRegister s.chef (by omega)
    · rintro ⟨j, a, hj, ha⟩
      have := countP_pos_of_getElem? ChefPc.holdsRegister s.chef j a hj ha
      omega

/-- Witness for C1: in the reachable state `spinState` chef 0 holds the register and
    the flag is 1. -/
theorem register_mutual_exclusion_witness :
    spinState.chef = [ChefPc.paying 1, ChefPc.idle, ChefPc.idle, ChefPc.idle] ∧
    spinState.chef.countP ChefPc.holdsRegister ≤ 1 ∧
    spinState.cash_register_busy = 1 :=
  ⟨by decide,
   (register_mutual_exclusion demoCustomers NUM_CHEFS spinState spinState_reachable).1,
   by decide⟩

/-! ### Capacity invariant -/

theorem capInv_init (cs : List Customer) (n : Nat) : CapInv (initState cs n) := by
  constructor
  · simp only [initState]
    rw [countP_replicate_false _ _ _ rfl]; rfl
  · simp only [initState]
    rw [countP_replicate_false _ _ _ rfl]; rfl

theorem capInv_step {cs : List Customer} {s s' : State} (hi : CapInv s)
    (hstep : Step cs s s') : CapInv s' := by
  obtain ⟨h1, h2⟩ := hi
  rcases step_cases hstep with ⟨k, c, _, hc⟩ | ⟨j, hc⟩
  · cases hc with
    | wake h =>
      have a1 := countP_set_of_getElem? CustPc.holdsInside s.cust k _ CustPc.active h
      have a2 := countP_set_of_getElem? CustPc.holdsSofa s.cust k _ CustPc.active h
      simp only [CustPc.holdsInside, CustPc.holdsSofa] at a1 a2
      constructor <;> (simp at a1 a2 ⊢; try omega)
    | enter h hs =>
      have a1 := countP_set_of_getElem? CustPc.holdsInside s.cust k _ CustPc.inside h
      have a2 := countP_set_of_getElem? CustPc.holdsSofa s.cust k _ CustPc.inside h
      simp only [CustPc.holdsInside, CustPc.holdsSofa] at a1 a2
      constructor <;> (simp at a1 a2 ⊢; try omega)
    | sit h hs =>
      have a1 := countP_set_of_getElem? CustPc.holdsInside s.cust k _ CustPc.seated h
      have a2 := countP_set_of_getElem? CustPc.holdsSofa s.cust k _ CustPc.seated h
      simp only [CustPc.holdsInside, CustPc.holdsSofa] at a1 a2
      constructor <;> (simp at a1 a2 ⊢; try omega)
    | request h =>
      have a1 := countP_set_of_getElem? CustPc.holdsInside s.cust k _ CustPc.requested h
      have a2 := countP_set_of_getElem? CustPc.holdsSofa s.cust k _ CustPc.requested h
      simp only [CustPc.holdsInside, CustPc.holdsSofa] at a1 a2
      constructor <;> (simp at a1 a2 ⊢; try omega)
    | takeCake h hs =>
      have a1 := countP_set_of_getElem? CustPc.holdsInside s.cust k _ CustPc.cakeReceived h
      have a2 := countP_set_of_getElem? CustPc.holdsSofa s.cust k _ CustPc.cakeReceived h
      simp only [CustPc.holdsInside, CustPc.holdsSofa] at a1 a2
      constructor <;> (simp at a1 a2 ⊢; try omega)
    | pay h =>
      have a1 := countP_set_of_getElem? CustPc.holdsInside s.cust k _ CustPc.paying h
      have a2 := countP_set_of_getElem? CustPc.holdsSofa s.cust k _ CustPc.paying h
      simp only [CustPc.holdsInside, CustPc.holdsSofa] at a1 a2
      constructor <;> (simp at a1 a2 ⊢; try omega)
    | paid h hs =>
      have a1 := countP_set_of_getElem? CustPc.holdsInside s.cust k _ CustPc.leaving h
      have a2 := countP_set_of_getElem? CustPc.holdsSofa s.cust k _ CustPc.leaving h
      simp only [CustPc.holdsInside, CustPc.holdsSofa] at a1 a2
      constructor <;> (simp at a1 a2 ⊢; try omega)
    | freeSofa h =>
      have a1 := countP_set_of_getElem? CustPc.holdsInside s.cust k _ CustPc.sofaFreed h
      have a2 := countP_set_of_getElem? CustPc.holdsSofa s.cust k _ CustPc.sofaFreed h
      simp only [CustPc.holdsInside, CustPc.holdsSofa] at a1 a2
      constructor <;> (simp at a1 a2 ⊢; try omega)
    | freeStore h =>
      have a1 := countP_set_of_getElem? CustPc.holdsInside s.cust k _ CustPc.departed h
      have a2 := countP_set_of_getElem? CustPc.holdsSofa s.cust k _ CustPc.departed h
      simp only [CustPc.holdsInside, CustPc.holdsSofa] at a1 a2
      constructor <;> (simp at a1 a2 ⊢; try omega)
  · cases hc <;> exact ⟨h1, h2⟩

theorem capInv_reachable {cs : List Customer} {n : Nat} {s : State}
    (h : Reachable cs n s) : CapInv s := by
  induction h with
  | init => exact capInv_init cs n
  | step _ hstep ih => exact capInv_step ih hstep

/-- C4: in every reachable state, for the store pool (capacity 25) and the seating pool
    (capacity 4) the available count is at most the capacity (and, being a semaphore
    value, at least 0), capacity minus available equals the number of customers that
    have acquired and not yet released the permit, so at most 25 customers are inside
    and at most 4 are seated; in particular no release lifts a count above capacity. -/
theorem capacity_conservation (cs : List Customer) (n : Nat) (s : State)
    (h : Reachable cs n s) :
    (0 ≤ s.inside_sem ∧ s.inside_sem ≤ 25) ∧
    25 - s.inside_sem = s.cust.countP CustPc.holdsInside ∧
    s.cust.countP CustPc.holdsInside ≤ 25 ∧
    (0 ≤ s.sofa_sem ∧ s.sofa_sem ≤ 4) ∧
    4 - s.sofa_sem = s.cust.countP CustPc.holdsSofa ∧
    s.cust.countP CustPc.holdsSofa ≤ 4 ∧
    (∀ s', Step cs s s' → s'.inside_sem ≤ 25 ∧ s'.sofa_sem ≤ 4) := by
  obtain ⟨h1, h2⟩ := capInv_reachable h
  simp only [MAX_CAPACITY, SOFA_CAPACITY] at h1 h2
  refine ⟨⟨by omega, by omega⟩, by omega, by omega, ⟨by omega, by omega⟩, by omega,
    by omega, ?_⟩
  intro s' hstep
  obtain ⟨g1, g2⟩ := capInv_step ⟨h1, h2⟩ hstep
  simp only [MAX_CAPACITY, SOFA_CAPACITY] at g1 g2
  exact ⟨by omega, by omega⟩

/-- Witness for C4: in the reachable state `prioState` both customers are inside and
    seated, leaving 23 store permits and 2 seats. -/
theorem capacity_conservation_witness :
    prioState.inside_sem = 23 ∧ prioState.sofa_sem = 2 ∧
    25 - prioState.inside_sem = prioState.cust.countP CustPc.holdsInside ∧
    4 - prioState.sofa_sem = prioState.cust.countP CustPc.holdsSofa :=
  ⟨by decide, by decide,
   (capacity_conservation demoCustomers NUM_CHEFS prioState prioState_reachable).2.1,
   (capacity_conservation demoCustomers NUM_CHEFS prioState prioState_reachable).2.2.2.2.1⟩

/-! ### Load-time sort -/

theorem swap_perm {α : Type} [DecidableEq α] (l : List α) (i j : Nat) (a b : α)
    (hi : l[i]? = some a) (hj : l[j]? = some b) (hne : i ≠ j) :
    ((l.set i b).set j a).Perm l := by
  rw [List.perm_iff_count]
  intro x
  have hj' : (l.set i b)[j]? = some b := by rw [List.getElem?_set_ne hne]; exact hj
  have h1 := countP_set_of_getElem? (fun y => y == x) (l.set i b) j b a hj'
  have h2 := countP_set_of_getElem? (fun y => y == x) l i a b hi
  simp only [List.count]
  omega

theorem load_customers_length (recs : List Arrival) :
    ∀ n, (load_customers n recs).length = recs.length := by
  induction recs with
  | nil => intro n; rfl
  | cons r rest ih => intro n; simp [load_customers, ih]

theorem load_customers_content (recs : List Arrival) :
    ∀ n, (load_customers n recs).map Customer.content = recs.map (fun r => (r.ts, r.id)) := by
  induction recs with
  | nil => intro n; rfl
  | cons r rest ih => intro n; simp [load_customers, ih, Customer.content]

theorem load_customers_index (recs : List Arrival) :
    ∀ (n k : Nat) (c : Customer), (load_customers n recs)[k]? = some c → c.index = n + k := by
  induction recs with
  | nil => intro n k c h; simp [load_customers] at h
  | cons r rest ih =>
    intro n k c h
    cases k with
    | zero =>
      simp only [load_customers, List.getElem?_cons_zero, Option.some.injEq] at h
      subst h; rfl
    | succ k =>
      simp only [load_customers, List.getElem?_cons_succ] at h
      have := ih (n + 1) k c h
      omega

theorem load_customers_indexOk (recs : List Arrival) : IndexOk (load_customers 0 recs) := by
  intro k c h
  have := load_customers_index recs 0 k c h
  omega

theorem sort_compare_swap_length (cs : List Customer) (i j : Nat) :
    (sort_compare_swap cs i j).length = cs.length := by
  unfold sort_compare_swap
  split
  · split <;> simp
  · rfl

theorem sort_compare_swap_content (cs : List Customer) (i j : Nat) (hij : i ≠ j) :
    ((sort_compare_swap cs i j).map Customer.content).Perm (cs.map Customer.content) := by
  unfold sort_compare_swap
  split
  · next ci cj hi hj =>
    split
    · simp only [List.map_set]
      have e1 : Customer.content { cj with index := i } = Customer.content cj := rfl
      have e2 : Customer.content { ci with index := j } = Customer.content ci := rfl
      rw [e1, e2]
      apply swap_perm _ i j _ _ _ _ hij
      · simp [hi]
      · simp [hj]
    · exact List.Perm.refl _
  · exact List.Perm.refl _

theorem sort_compare_swap_indexOk (cs : List Customer) (i j : Nat) (h : IndexOk cs) :
    IndexOk (sort_compare_swap cs i j) := by
  unfold sort_compare_swap
  split
  · next ci cj hi hj =>
    split
    · intro k c hk
      rw [List.getElem?_set] at hk
      split at hk
      · next hjk =>
        split at hk
        · cases hk; exact hjk
        · exact absurd hk (by simp)
      · rw [List.getElem?_set] at hk
        split at hk
        · next hik =>
          split at hk
          · cases hk; exact hik
          · exact absurd hk (by simp)
        · exact h k c hk
    · exact h
  · exact h

theorem sort_compare_swap_arrivalAt (cs : List Customer) (i j : Nat) (hij : i < j)
    (hj : j < cs.length) :
    (arrivalAt cs j < arrivalAt cs i →
      ∀ k, arrivalAt (sort_compare_swap cs i j) k =
        if k = i then arrivalAt cs j else if k = j then arrivalAt cs i else arrivalAt cs k) ∧
    (¬ arrivalAt cs j < arrivalAt cs i → sort_compare_swap cs i j = cs) := by
  have hi : i < cs.length := by omega
  have ei : cs[i]? = some cs[i] := List.getElem?_eq_getElem hi
  have ej : cs[j]? = some cs[j] := List.getElem?_eq_getElem hj
  have ai : arrivalAt cs i = cs[i].arrival := by simp [arrivalAt, ei]
  have aj : arrivalAt cs j = cs[j].arrival := by simp [arrivalAt, ej]
  constructor
  · intro hlt k
    rw [ai, aj] at hlt
    have hs : sort_compare_swap cs i j =
        (cs.set i { cs[j] with index := i }).set j { cs[i] with index := j } := by
      simp only [sort_compare_swap, ei, ej, hlt, if_true]
    rw [hs]
    unfold arrivalAt
    rw [List.getElem?_set, List.getElem?_set]
    by_cases hki : k = i
    · subst hki
      have : ¬ j = k := by omega
      simp [this, hi, ej]
    · by_cases hkj : k = j
      · subst hkj
        simp [hki, hi, hj, ei]
      · have h1 : ¬ j = k := fun h => hkj h.symm
        have h2 : ¬ i = k := fun h => hki h.symm
        simp [h1, h2, hki, hkj]
  · intro hge
    rw [ai, aj] at hge
    simp only [sort_compare_swap, ei, ej, hge, if_false]

theorem foldl_range'_invariant {β : Type} (f : β → Nat → β) (P : Nat → β → Prop) :
    ∀ (len a : Nat) (b : β), P a b →
      (∀ (j : Nat) (b : β), a ≤ j → j < a + len → P j b → P (j + 1) (f b j)) →
      P (a + len) ((List.range' a len).foldl f b) := by
  intro len
  induction len with
  | zero => intro a b h _; simpa using h
  | succ len ih =>
    intro a b h hstep
    rw [List.range'_succ, List.foldl_cons]
    have h1 : P (a + 1) (f b a) := hstep a b (Nat.le_refl a) (by omega) h
    have := ih (a + 1) (f b a) h1 (fun j b hj hlt hP => hstep j b (by omega) (by omega) hP)
    have e : a + 1 + len = a + (len + 1) := by omega
    rw [e] at this
    exact this

theorem sortBase_swap {cs0 cs : List Customer} (i j : Nat) (hij : i ≠ j)
    (h : SortBase cs0 cs) : SortBase cs0 (sort_compare_swap cs i j) :=
  ⟨by rw [sort_compare_swap_length]; exact h.1,
   (sort_compare_swap_content cs i j hij).trans h.2.1,
   sort_compare_swap_indexOk cs i j h.2.2⟩

theorem sort_inner_step {cs0 cs : List Customer} {i j : Nat} (hij : i < j)
    (hj : j < cs0.length)
    (h : SortBase cs0 cs ∧ SortedBefore cs0.length i cs ∧ MinSoFar i j cs) :
    SortBase cs0 (sort_compare_swap cs i j) ∧
    SortedBefore cs0.length i (sort_compare_swap cs i j) ∧
    MinSoFar i (j + 1) (sort_compare_swap cs i j) := by
  obtain ⟨hb, hpre, hmin⟩ := h
  have hjl : j < cs.length := by rw [hb.1]; exact hj
  obtain ⟨hsw, hno⟩ := sort_compare_swap_arrivalAt cs i j hij hjl
  refine ⟨sortBase_swap i j (by omega) hb, ?_, ?_⟩
  · by_cases hlt : arrivalAt cs j < arrivalAt cs i
    · have hk := hsw hlt
      intro p q hp hpq hq
      rw [hk p, hk q]
      have hpi : ¬ p = i := by omega
      have hpj : ¬ p = j := by omega
      rw [if_neg hpi, if_neg hpj]
      by_cases hqi : q = i
      · rw [if_pos hqi]
        exact hpre p j hp (by omega) hj
      · rw [if_neg hqi]
        by_cases hqj : q = j
        · rw [if_pos hqj]
          exact hpre p i hp (by omega) (by omega)
        · rw [if_neg hqj]
          exact hpre p q hp hpq hq
    · rw [hno hlt]; exact hpre
  · by_cases hlt : arrivalAt cs j < arrivalAt cs i
    · have hk := hsw hlt
      intro q hiq hqj
      rw [hk i, hk q]
      have hqi : ¬ q = i := by omega
      rw [if_pos rfl, if_neg hqi]
      by_cases hqj' : q = j
      · rw [if_pos hqj']; omega
      · rw [if_neg hqj']
        have := hmin q hiq (by omega)
        omega
    · rw [hno hlt]
      intro q hiq hqj
      by_cases hqj' : q = j
      · subst hqj'; omega
      · exact hmin q hiq (by omega)

theorem sort_inner_spec {cs0 cs : List Customer} {i : Nat} (hi : i < cs0.length)
    (h : SortBase cs0 cs ∧ SortedBefore cs0.length i cs) :
    SortBase cs0 (sort_inner cs i) ∧ SortedBefore cs0.length (i + 1) (sort_inner cs i) := by
  obtain ⟨hb, hpre⟩ := h
  have key := foldl_range'_invariant (fun a j => sort_compare_swap a i j)
    (fun j b => SortBase cs0 b ∧ SortedBefore cs0.length i b ∧ MinSoFar i j b)
    (cs.length - (i + 1)) (i + 1) cs
    ⟨hb, hpre, fun q h1 h2 => by omega⟩
    (fun j b hj hlt hP => sort_inner_step (by omega) (by rw [hb.1] at hlt; omega) hP)
  have e : i + 1 + (cs.length - (i + 1)) = cs0.length := by rw [hb.1]; omega
  rw [e] at key
  obtain ⟨kb, kpre, kmin⟩ := key
  refine ⟨kb, ?_⟩
  intro p q hp hpq hq
  by_cases hpi : p = i
  · subst hpi; exact kmin q hpq hq
  · exact kpre p q (by omega) hpq hq

theorem sort_by_arrival_spec (cs : List Customer) (h : IndexOk cs) :
    SortBase cs (sort_by_arrival cs) ∧ SortedBefore cs.length cs.length (sort_by_arrival cs) := by
  have key := foldl_range'_invariant (fun a i => sort_inner a i)
    (fun i b => SortBase cs b ∧ SortedBefore cs.length i b)
    cs.length 0 cs
    ⟨⟨rfl, List.Perm.refl _, h⟩, fun p q hp => by omega⟩
    (fun i b _ hlt hP => sort_inner_spec (by omega) hP)
  simp only [Nat.zero_add] at key
  unfold sort_by_arrival
  rw [List.range_eq_range']
  exact key

theorem arrivalAt_of_getElem? {cs : List Customer} {k : Nat} {c : Customer}
    (h : cs[k]? = some c) : arrivalAt cs k = c.arrival := by
  simp [arrivalAt, h]

theorem mem_content_of_perm {cs : List Customer} {recs : List Arrival}
    (hperm : (cs.map Customer.content).Perm (recs.map (fun r => (r.ts, r.id))))
    {c : Customer} (hc : c ∈ cs) : ∃ r ∈ recs, r.ts = c.arrival ∧ r.id = c.id := by
  have h1 : c.content ∈ cs.map Customer.content := List.mem_map_of_mem _ hc
  have h2 := hperm.mem_iff.mp h1
  obtain ⟨r, hr, hrc⟩ := List.mem_map.mp h2
  simp only [Customer.content, Prod.mk.injEq] at hrc
  exact ⟨r, hr, hrc.1, hrc.2⟩

theorem mem_recs_of_perm {cs : List Customer} {recs : List Arrival}
    (hperm : (cs.map Customer.content).Perm (recs.map (fun r => (r.ts, r.id))))
    {r : Arrival} (hr : r ∈ recs) : ∃ c ∈ cs, c.arrival = r.ts ∧ c.id = r.id := by
  have h1 : (r.ts, r.id) ∈ recs.map (fun r => (r.ts, r.id)) :=
    List.mem_map.mpr ⟨r, hr, rfl⟩
  have h2 := hperm.mem_iff.mpr h1
  obtain ⟨c, hc, hcr⟩ := List.mem_map.mp h2
  simp only [Customer.content, Prod.mk.injEq] at hcr
  exact ⟨c, hc, hcr.1, hcr.2⟩

/-- C7: for every non-empty list of at most `MAXN` parsed records whose arrival times
    are non-negative `int`s, after the sort and normalisation in `main`: the customers
    (with `g_start_offset` added back to each arrival) are a permutation of the parsed
    records; arrival offsets are non-decreasing by position; `g_start_offset` is the
    minimum original arrival; every offset is non-negative and the first is 0; and each
    customer's `index` equals its position in the array. -/
theorem main_setup_sorted_normalised (recs : List Arrival) (hne : recs ≠ [])
    (hlen : recs.length ≤ MAXN) (hts : ∀ r ∈ recs, 0 ≤ r.ts ∧ r.ts < 2147483648) :
    ((main_setup recs).1.map (fun c => (c.arrival + (main_setup recs).2, c.id))).Perm
      (recs.map (fun r => (r.ts, r.id))) ∧
    (∀ (p q : Nat) (a b : Customer), p ≤ q → (main_setup recs).1[p]? = some a →
      (main_setup recs).1[q]? = some b → a.arrival ≤ b.arrival) ∧
    (∃ r ∈ recs, r.ts = (main_setup recs).2) ∧
    (∀ r ∈ recs, (main_setup recs).2 ≤ r.ts) ∧
    (∀ c ∈ (main_setup recs).1, 0 ≤ c.arrival) ∧
    (∃ c0, (main_setup recs).1[0]? = some c0 ∧ c0.arrival = 0) ∧
    (∀ (k : Nat) (c : Customer), (main_setup recs).1[k]? = some c → c.index = k) ∧
    (main_setup recs).1.length = recs.length ∧
    (main_setup recs).1.length ≤ MAXN := by
  obtain ⟨⟨hl, hperm, hidx⟩, hsorted⟩ :=
    sort_by_arrival_spec (load_customers 0 recs) (load_customers_indexOk recs)
  rw [load_customers_content] at hperm
  rw [load_customers_length] at hl hsorted
  generalize hsd : sort_by_arrival (load_customers 0 recs) = sorted at hl hperm hidx hsorted
  have hms : main_setup recs = normalize_arrivals sorted := by
    unfold main_setup; rw [hsd]
  cases hsorted_eq : sorted with
  | nil =>
    rw [hsorted_eq] at hl
    have : recs.length = 0 := by simpa using hl.symm
    exact absurd (List.length_eq_zero.mp this) hne
  | cons c0 rest =>
    have h0 : sorted[0]? = some c0 := by rw [hsorted_eq]; simp
    have hmin : ∀ c ∈ sorted, c0.arrival ≤ c.arrival := by
      intro c hc
      obtain ⟨q, hq⟩ := List.mem_iff_getElem?.mp hc
      have hql : q < sorted.length := by
        rcases Nat.lt_or_ge q sorted.length with h | h
        · exact h
        · rw [List.getElem?_eq_none h] at hq; exact absurd hq (by simp)
      rcases Nat.eq_zero_or_pos q with hq0 | hqpos
      · subst hq0; rw [h0] at hq; cases hq; exact Int.le_refl _
      · have := hsorted 0 q (by omega) hqpos (by omega)
        rwa [arrivalAt_of_getElem? h0, arrivalAt_of_getElem? hq] at this
    have hrange : ∀ c ∈ sorted, 0 ≤ c.arrival ∧ c.arrival < 2147483648 := by
      intro c hc
      obtain ⟨r, hr, hrt, _⟩ := mem_content_of_perm hperm hc
      rw [← hrt]; exact hts r hr
    have hc0 : c0 ∈ sorted := List.getElem?_mem h0
    have hnorm : ∀ c ∈ sorted, toInt32 (c.arrival - c0.arrival) = c.arrival - c0.arrival := by
      intro c hc
      apply toInt32_of_fits
      have := hmin c hc
      have := hrange c hc
      have := hrange c0 hc0
      unfold fitsInt32; omega
    have hres : main_setup recs =
        (sorted.map (fun c => { c with arrival := toInt32 (c.arrival - c0.arrival) }),
          c0.arrival) := by
      rw [hms]; conv_lhs => rw [hsorted_eq]
      simp only [normalize_arrivals]; rw [← hsorted_eq]
    rw [hres]
    simp only
    have hget : ∀ (k : Nat) (c : Customer),
        (sorted.map (fun c => ({ c with arrival := toInt32 (c.arrival - c0.arrival) } :
          Customer)))[k]? = some c →
        ∃ d, sorted[k]? = some d ∧ c = { d with arrival := d.arrival - c0.arrival } := by
      intro k c hk
      rw [List.getElem?_map] at hk
      cases hd : sorted[k]? with
      | none => rw [hd] at hk; exact absurd hk (by simp)
      | some d =>
        rw [hd] at hk
        simp only [Option.map_some', Option.some.injEq] at hk
        refine ⟨d, rfl, ?_⟩
        rw [← hk, hnorm d (List.getElem?_mem hd)]
    refine ⟨?_, ?_, ?_, ?_, ?_, ?_, ?_, ?_, ?_⟩
    · rw [List.map_map]
      have : (sorted.map ((fun c => (c.arrival + c0.arrival, c.id)) ∘
          (fun c => ({ c with arrival := toInt32 (c.arrival - c0.arrival) } : Customer)))) =
          sorted.map Customer.content := by
        apply List.map_congr_left
        intro c hc
        simp only [Function.comp, Customer.content, hnorm c hc, Prod.mk.injEq, and_true]
        omega
      rw [this]; exact hperm
    · intro p q a b hpq ha hb
      obtain ⟨da, hda, ea⟩ := hget p a ha
      obtain ⟨db, hdb, eb⟩ := hget q b hb
      have hql : q < recs.length := by
        rcases Nat.lt_or_ge q sorted.length with h | h
        · omega
        · rw [List.getElem?_eq_none h] at hdb; exact absurd hdb (by simp)
      subst ea; subst eb
      simp only
      rcases Nat.eq_or_lt_of_le hpq with heq | hlt
      · subst heq; rw [hda] at hdb; cases hdb; exact Int.le_refl _
      · have := hsorted p q (by omega) hlt hql
        rw [arrivalAt_of_getElem? hda, arrivalAt_of_getElem? hdb] at this
        omega
    · obtain ⟨r, hr, hrt, _⟩ := mem_content_of_perm hperm hc0
      exact ⟨r, hr, hrt⟩
    · intro r hr
      obtain ⟨c, hc, hca, _⟩ := mem_recs_of_perm hperm hr
      rw [← hca]; exact hmin c hc
    · intro c hc
      obtain ⟨d, hd, hdc⟩ := List.mem_map.mp hc
      rw [← hdc]
      simp only [hnorm d hd]
      have := hmin d hd
      omega
    · refine ⟨{ c0 with arrival := c0.arrival - c0.arrival }, ?_, by simp⟩
      rw [List.getElem?_map, h0]
      simp only [Option.map_some', Option.some.injEq]
      rw [hnorm c0 hc0]
    · intro k c hk
      obtain ⟨d, hd, hdc⟩ := hget k c hk
      subst hdc
      exact hidx k d hd
    · rw [List.length_map]; exact hl
    · rw [List.length_map, hl]; exact hlen

/-- Witness for C7: the lines `5 Customer 1`, `3 Customer 2`, `4 Customer 3` load as
    customers 2, 3, 1 with offsets 0, 1, 2, slots 0, 1, 2 and print offset 3. -/
theorem main_setup_sorted_normalised_witness :
    main_setup [⟨5, 1⟩, ⟨3, 2⟩, ⟨4, 3⟩] = ([⟨2, 0, 0⟩, ⟨3, 1, 1⟩, ⟨1, 2, 2⟩], 3) ∧
    (((main_setup [⟨5, 1⟩, ⟨3, 2⟩, ⟨4, 3⟩]).1.map
        (fun c => (c.arrival + (main_setup [⟨5, 1⟩, ⟨3, 2⟩, ⟨4, 3⟩]).2, c.id))).Perm
      ([⟨5, 1⟩, ⟨3, 2⟩, ⟨4, 3⟩].map (fun r : Arrival => (r.ts, r.id)))) :=
  ⟨by decide,
   (main_setup_sorted_normalised [⟨5, 1⟩, ⟨3, 2⟩, ⟨4, 3⟩] (by decide) (by decide)
     (by decide)).1⟩

/-! ### Slot lookup -/

theorem find_idx_of_mem (cs : List Customer) (hnd : (cs.map Customer.id).Nodup)
    (c : Customer) (hc : c ∈ cs) : find_idx cs c.id = (c.index : Int) := by
  induction cs with
  | nil => simp at hc
  | cons c0 rest ih =>
    simp only [List.map_cons, List.nodup_cons] at hnd
    simp only [find_idx]
    by_cases h0 : c0.id = c.id
    · rw [if_pos h0]
      rcases List.mem_cons.mp hc with heq | hmem
      · rw [heq]
      · exact absurd (h0 ▸ List.mem_map_of_mem Customer.id hmem) hnd.1
    · rw [if_neg h0]
      rcases List.mem_cons.mp hc with heq | hmem
      · exact absurd (by rw [heq]) h0
      · exact ih hnd.2 hmem

theorem find_idx_none_or_found (cs : List Customer) (cid : Int) :
    find_idx cs cid = -1 ∨ ∃ c ∈ cs, c.id = cid ∧ find_idx cs cid = (c.index : Int) := by
  induction cs with
  | nil => left; rfl
  | cons c0 rest ih =>
    simp only [find_idx]
    by_cases h0 : c0.id = cid
    · right; exact ⟨c0, List.mem_cons_self _ _, h0, by rw [if_pos h0]⟩
    · rw [if_neg h0]
      rcases ih with h | ⟨c, hc, hid, hf⟩
      · left; exact h
      · right; exact ⟨c, List.mem_cons_of_mem _ hc, hid, hf⟩

theorem ids_inj {cs : List Customer} (hnd : (cs.map Customer.id).Nodup) {k k' : Nat}
    {c c' : Customer} (hk : cs[k]? = some c) (hk' : cs[k']? = some c') (hid : c.id = c'.id) :
    k = k' := by
  have h1 : (cs.map Customer.id)[k]? = some c.id := by rw [List.getElem?_map, hk]; rfl
  have h2 : (cs.map Customer.id)[k']? = some c.id := by
    rw [List.getElem?_map, hk', hid]; rfl
  obtain ⟨hl1, e1⟩ := List.getElem?_eq_some.mp h1
  obtain ⟨hl2, e2⟩ := List.getElem?_eq_some.mp h2
  exact (List.Nodup.getElem_inj_iff hnd).mp (e1.trans e2.symm)

theorem post_if_found_nat (sem : Nat → Nat) (n : Nat) :
    post_if_found sem (n : Int) = bump sem n := by
  have : ¬ ((n : Int) = -1) := by omega
  simp only [post_if_found, ne_eq, this, not_false_eq_true, if_true, Int.toNat_ofNat]
  rfl

theorem bump_if_found_nat (cnt : Nat → Nat) (n : Nat) :
    bump_if_found cnt (n : Int) = bump cnt n := by
  have : ¬ ((n : Int) = -1) := by omega
  simp [bump_if_found, this]

theorem bump_same (f : Nat → Nat) (i : Nat) : bump f i i = f i + 1 := by simp [bump]

theorem bump_other (f : Nat → Nat) {i x : Nat} (h : x ≠ i) : bump f i x = f x := by
  simp [bump, h]

theorem sem_take_same (f : Nat → Nat) (i : Nat) : sem_take f i i = f i - 1 := by
  simp [sem_take]

theorem sem_take_other (f : Nat → Nat) {i x : Nat} (h : x ≠ i) : sem_take f i x = f x := by
  simp [sem_take, h]

/-! ### Queue invariant -/

theorem getElem?_set_cases {α : Type} {l : List α} {j i : Nat} {x y : α}
    (h : (l.set j x)[i]? = some y) : (i = j ∧ y = x) ∨ l[i]? = some y := by
  rw [List.getElem?_set] at h
  split at h
  · next hji =>
    split at h
    · left; exact ⟨hji.symm, by cases h; rfl⟩
    · exact absurd h (by simp)
  · right; exact h

theorem countP_lt_length_of_getElem? {α : Type} (p : α → Bool) {l : List α} {k : Nat} {a : α}
    (h : l[k]? = some a) (ha : p a = false) : l.countP p < l.length := by
  induction l generalizing k with
  | nil => simp at h
  | cons y l ih =>
    cases k with
    | zero =>
      simp only [List.getElem?_cons_zero, Option.some.injEq] at h
      subst h
      have := List.countP_le_length p (l := l)
      simp only [List.countP_cons, ha, List.length_cons]
      simp only [Bool.false_eq_true, if_false]
      omega
    | succ k =>
      simp only [List.getElem?_cons_succ] at h
      have := ih h
      simp only [List.countP_cons, List.length_cons]
      split <;> omega

theorem qInv_init (cs : List Customer) (n : Nat) : QInv cs (initState cs n) := by
  refine ⟨q_init_wf _, q_init_wf _, by simp [initState], ?_, ?_⟩
  · simp [initState, q_init]
  · simp [initState, q_init]

theorem qInv_of_pc_change {cs : List Customer} {s s' : State} {k : Nat} {x y : CustPc}
    (hq : QInv cs s) (hb : s'.bake_q = s.bake_q) (hp : s'.pay_q = s.pay_q)
    (hc : s'.cust = s.cust.set k y) (h : s.cust[k]? = some x)
    (m1 : x.hasRequested = true → y.hasRequested = true)
    (m2 : x.hasQueuedToPay = true → y.hasQueuedToPay = true) : QInv cs s' := by
  obtain ⟨q1, q2, q3, q4, q5⟩ := hq
  have a1 := countP_set_of_getElem? CustPc.hasRequested s.cust k x y h
  have a2 := countP_set_of_getElem? CustPc.hasQueuedToPay s.cust k x y h
  refine ⟨by rw [hb]; exact q1, by rw [hp]; exact q2, by rw [hc, List.length_set]; exact q3,
    ?_, ?_⟩
  · rw [hb, hc]
    by_cases hx : x.hasRequested = true
    · rw [hx, m1 hx] at a1; omega
    · have hx' : x.hasRequested = false := by simpa using hx
      rw [hx'] at a1
      simp only [Bool.false_eq_true, if_false] at a1
      omega
  · rw [hp, hc]
    by_cases hx : x.hasQueuedToPay = true
    · rw [hx, m2 hx] at a2; omega
    · have hx' : x.hasQueuedToPay = false := by simpa using hx
      rw [hx'] at a2
      simp only [Bool.false_eq_true, if_false] at a2
      omega

theorem bake_room {cs : List Customer} {s : State} {k : Nat} (hq : QInv cs s)
    (hlen : cs.length ≤ MAXN) (h : s.cust[k]? = some CustPc.seated) :
    s.bake_q.count < MAXN := by
  obtain ⟨_, _, q3, q4, _⟩ := hq
  have := countP_lt_length_of_getElem? CustPc.hasRequested h rfl
  omega

theorem pay_room {cs : List Customer} {s : State} {k : Nat} (hq : QInv cs s)
    (hlen : cs.length ≤ MAXN) (h : s.cust[k]? = some CustPc.cakeReceived) :
    s.pay_q.count < MAXN := by
  obtain ⟨_, _, q3, _, q5⟩ := hq
  have := countP_lt_length_of_getElem? CustPc.hasQueuedToPay h rfl
  omega

theorem qInv_step {cs : List Customer} {s s' : State} (hlen : cs.length ≤ MAXN)
    (hq : QInv cs s) (hstep : Step cs s s') : QInv cs s' := by
  rcases step_cases hstep with ⟨k, c, _, hc⟩ | ⟨j, hc⟩
  · cases hc with
    | wake h => exact qInv_of_pc_change hq rfl rfl rfl h (by decide) (by decide)
    | enter h hs => exact qInv_of_pc_change hq rfl rfl rfl h (by decide) (by decide)
    | sit h hs => exact qInv_of_pc_change hq rfl rfl rfl h (by decide) (by decide)
    | request h =>
      have hroom := bake_room hq hlen h
      obtain ⟨q1, q2, q3, q4, q5⟩ := hq
      have a1 := countP_set_of_getElem? CustPc.hasRequested s.cust k _ CustPc.requested h
      have a2 := countP_set_of_getElem? CustPc.hasQueuedToPay s.cust k _ CustPc.requested h
      simp only [CustPc.hasRequested, CustPc.hasQueuedToPay] at a1 a2
      refine ⟨q_push_wf _ _ q1 hroom, q2, by simp only [List.length_set]; exact q3, ?_, ?_⟩
      · simp only [q_push_count]; simp at a1; omega
      · simp at a2; simp only []; omega
    | takeCake h hs => exact qInv_of_pc_change hq rfl rfl rfl h (by decide) (by decide)
    | pay h =>
      have hroom := pay_room hq hlen h
      obtain ⟨q1, q2, q3, q4, q5⟩ := hq
      have a1 := countP_set_of_getElem? CustPc.hasRequested s.cust k _ CustPc.paying h
      have a2 := countP_set_of_getElem? CustPc.hasQueuedToPay s.cust k _ CustPc.paying h
      simp only [CustPc.hasRequested, CustPc.hasQueuedToPay] at a1 a2
      refine ⟨q1, q_push_wf _ _ q2 hroom, by simp only [List.length_set]; exact q3, ?_, ?_⟩
      · simp at a1; simp only []; omega
      · simp only [q_push_count]; simp at a2; omega
    | paid h hs => exact qInv_of_pc_change hq rfl rfl rfl h (by decide) (by decide)
    | freeSofa h => exact qInv_of_pc_change hq rfl rfl rfl h (by decide) (by decide)
    | freeStore h => exact qInv_of_pc_change hq rfl rfl rfl h (by decide) (by decide)
  · obtain ⟨q1, q2, q3, q4, q5⟩ := hq
    cases hc with
    | takePay h hp hr =>
      refine ⟨q1, q_pop_wf _ q2, q3, q4, ?_⟩
      simp only [q_pop_count]; omega
    | takeBake h hn hb =>
      refine ⟨q_pop_wf _ q1, q2, q3, ?_, q5⟩
      simp only [q_pop_count]; omega
    | retry h hp hr hb => exact ⟨q1, q2, q3, q4, q5⟩
    | sleep h hp hb => exact ⟨q1, q2, q3, q4, q5⟩
    | spurious h => exact ⟨q1, q2, q3, q4, q5⟩
    | postPay cid h => exact ⟨q1, q2, q3, q4, q5⟩
    | freeRegister h => exact ⟨q1, q2, q3, q4, q5⟩
    | postCake cid h => exact ⟨q1, q2, q3, q4, q5⟩

theorem qInv_reachable {cs : List Customer} {n : Nat} {s : State}
    (hlen : cs.length ≤ MAXN) (h : Reachable cs n s) : QInv cs s := by
  induction h with
  | init => exact qInv_init cs n
  | step _ hstep ih => exact qInv_step hlen ih hstep

/-! ### Only known ids circulate -/

theorem knownInv_init (cs : List Customer) (n : Nat) : KnownInv cs (initState cs n) := by
  refine ⟨?_, ?_, ?_, ?_⟩
  · intro v hv; simp [initState, q_init_toList] at hv
  · intro v hv; simp [initState, q_init_toList] at hv
  · intro j cid h
    simp only [initState, List.getElem?_replicate] at h
    split at h <;> simp at h
  · intro j cid h
    simp only [initState, List.getElem?_replicate] at h
    split at h <;> simp at h

theorem knownInv_step {cs : List Customer} {s s' : State} (hlen : cs.length ≤ MAXN)
    (hq : QInv cs s) (hk : KnownInv cs s) (hstep : Step cs s s') : KnownInv cs s' := by
  obtain ⟨k1, k2, k3, k4⟩ := hk
  have k3b : ∀ (j : Nat) (cid : Int),
      (broadcast s.chef)[j]? = some (ChefPc.baking cid) → ∃ c ∈ cs, c.id = cid :=
    fun j cid h => k3 j cid (broadcast_getElem?_of_ne_idle h (by simp))
  have k4b : ∀ (j : Nat) (cid : Int),
      (broadcast s.chef)[j]? = some (ChefPc.paying cid) → ∃ c ∈ cs, c.id = cid :=
    fun j cid h => k4 j cid (broadcast_getElem?_of_ne_idle h (by simp))
  rcases step_cases hstep with ⟨k, c, hck, hc⟩ | ⟨j, hc⟩
  · have hcm : c ∈ cs := List.getElem?_mem hck
    cases hc with
    | wake h => exact ⟨k1, k2, k3, k4⟩
    | enter h hs => exact ⟨k1, k2, k3, k4⟩
    | sit h hs => exact ⟨k1, k2, k3, k4⟩
    | request h =>
      refine ⟨?_, k2, k3b, k4b⟩
      intro v hv
      simp only [q_push_toList _ _ hq.1 (bake_room hq hlen h), List.mem_append,
        List.mem_singleton] at hv
      rcases hv with hv | hv
      · exact k1 v hv
      · exact ⟨c, hcm, hv.symm⟩
    | takeCake h hs => exact ⟨k1, k2, k3, k4⟩
    | pay h =>
      refine ⟨k1, ?_, k3b, k4b⟩
      intro v hv
      simp only [q_push_toList _ _ hq.2.1 (pay_room hq hlen h), List.mem_append,
        List.mem_singleton] at hv
      rcases hv with hv | hv
      · exact k2 v hv
      · exact ⟨c, hcm, hv.symm⟩
    | paid h hs => exact ⟨k1, k2, k3, k4⟩
    | freeSofa h => exact ⟨k1, k2, k3, k4⟩
    | freeStore h => exact ⟨k1, k2, k3, k4⟩
  · cases hc with
    | takePay h hp hr =>
      have hl := q_pop_toList s.pay_q hq.2.1 (by omega)
      refine ⟨k1, ?_, ?_, ?_⟩
      · intro v hv
        exact k2 v (by rw [hl]; exact List.mem_cons_of_mem _ hv)
      · intro i cid hi
        rcases getElem?_set_cases hi with ⟨_, he⟩ | hold
        · exact absurd he (by simp)
        · exact k3 i cid hold
      · intro i cid hi
        rcases getElem?_set_cases hi with ⟨_, he⟩ | hold
        · simp only [ChefPc.paying.injEq] at he
          exact k2 cid (by rw [hl, he]; exact List.mem_cons_self _ _)
        · exact k4 i cid hold
    | takeBake h hn hb =>
      have hl := q_pop_toList s.bake_q hq.1 (by omega)
      refine ⟨?_, k2, ?_, ?_⟩
      · intro v hv
        exact k1 v (by rw [hl]; exact List.mem_cons_of_mem _ hv)
      · intro i cid hi
        rcases getElem?_set_cases hi with ⟨_, he⟩ | hold
        · simp only [ChefPc.baking.injEq] at he
          exact k1 cid (by rw [hl, he]; exact List.mem_cons_self _ _)
        · exact k3 i cid hold
      · intro i cid hi
        rcases getElem?_set_cases hi with ⟨_, he⟩ | hold
        · exact absurd he (by simp)
        · exact k4 i cid hold
    | retry h hp hr hb => exact ⟨k1, k2, k3, k4⟩
    | postPay cid h =>
      refine ⟨k1, k2, ?_, ?_⟩
      · intro i cid' hi
        rcases getElem?_set_cases hi with ⟨_, he⟩ | hold
        · exact absurd he (by simp)
        · exact k3 i cid' hold
      · intro i cid' hi
        rcases getElem?_set_cases hi with ⟨_, he⟩ | hold
        · exact absurd he (by simp)
        · exact k4 i cid' hold
    | freeRegister h =>
      refine ⟨k1, k2, ?_, ?_⟩
      · intro i cid' hi
        rcases getElem?_set_cases (broadcast_getElem?_of_ne_idle hi (by simp)) with
          ⟨_, he⟩ | hold
        · exact absurd he (by simp)
        · exact k3 i cid' hold
      · intro i cid' hi
        rcases getElem?_set_cases (broadcast_getElem?_of_ne_idle hi (by simp)) with
          ⟨_, he⟩ | hold
        · exact absurd he (by simp)
        · exact k4 i cid' hold
    | sleep h hp hb =>
      refine ⟨k1, k2, ?_, ?_⟩
      · intro i cid' hi
        rcases getElem?_set_cases hi with ⟨_, he⟩ | hold
        · exact absurd he (by simp)
        · exact k3 i cid' hold
      · intro i cid' hi
        rcases getElem?_set_cases hi with ⟨_, he⟩ | hold
        · exact absurd he (by simp)
        · exact k4 i cid' hold
    | spurious h =>
      refine ⟨k1, k2, ?_, ?_⟩
      · intro i cid' hi
        rcases getElem?_set_cases hi with ⟨_, he⟩ | hold
        · exact absurd he (by simp)
        · exact k3 i cid' hold
      · intro i cid' hi
        rcases getElem?_set_cases hi with ⟨_, he⟩ | hold
        · exact absurd he (by simp)
        · exact k4 i cid' hold
    | postCake cid h =>
      refine ⟨k1, k2, ?_, ?_⟩
      · intro i cid' hi
        rcases getElem?_set_cases hi with ⟨_, he⟩ | hold
        · exact absurd he (by simp)
        · exact k3 i cid' hold
      · intro i cid' hi
        rcases getElem?_set_cases hi with ⟨_, he⟩ | hold
        · exact absurd he (by simp)
        · exact k4 i cid' hold

theorem knownInv_reachable {cs : List Customer} {n : Nat} {s : State}
    (hlen : cs.length ≤ MAXN) (h : Reachable cs n s) : KnownInv cs s := by
  induction h with
  | init => exact knownInv_init cs n
  | step hr hstep ih => exact knownInv_step hlen (qInv_reachable hlen hr) ih hstep

/-! ### Per-customer accounting -/

theorem count_cons_int (a b : Int) (l : List Int) :
    (b :: l).count a = l.count a + (if b = a then 1 else 0) := by
  rw [List.count_cons]; simp

theorem count_append_singleton_int (a b : Int) (l : List Int) :
    (l ++ [b]).count a = l.count a + (if b = a then 1 else 0) := by
  rw [List.count_append, List.count_cons]; simp

theorem tokInv_init (cs : List Customer) (n : Nat) : TokInv cs (initState cs n) := by
  intro k c pc _ hpc
  simp only [initState, List.getElem?_replicate] at hpc
  split at hpc
  · cases hpc
    refine ⟨?_, ?_, rfl, rfl, rfl, rfl⟩
    · simp only [initState, q_init_toList, List.count_nil]
      rw [countP_replicate_false _ _ _ rfl]; rfl
    · simp only [initState, q_init_toList, List.count_nil]
      rw [countP_replicate_false _ _ _ rfl]; rfl
  · exact absurd hpc (by simp)

theorem tokInv_of_cust {cs : List Customer} {s s' : State} {k0 : Nat} {c0 : Customer}
    {x y : CustPc} (hwf : WellFormed cs) (ht : TokInv cs s)
    (hk0 : cs[k0]? = some c0) (hx : s.cust[k0]? = some x) (hc : s'.cust = s.cust.set k0 y)
    (hself : CustInv s c0 x → CustInv s' c0 y)
    (hother : ∀ (c : Customer) (pc : CustPc), c.id ≠ c0.id → c.index ≠ c0.index →
      CustInv s c pc → CustInv s' c pc) :
    TokInv cs s' := by
  intro k c pc hck hpc
  rw [hc] at hpc
  by_cases hkk : k = k0
  · subst hkk
    rw [hk0] at hck; cases hck
    have hlt : k < s.cust.length := by
      rcases Nat.lt_or_ge k s.cust.length with h | h
      · exact h
      · rw [List.getElem?_eq_none h] at hx; exact absurd hx (by simp)
    rw [List.getElem?_set_self hlt] at hpc
    cases hpc
    exact hself (ht k c0 x hk0 hx)
  · rw [List.getElem?_set_ne (fun h => hkk h.symm)] at hpc
    have hid : c.id ≠ c0.id := fun h => hkk (ids_inj hwf.2.1 hck hk0 h)
    have hix : c.index ≠ c0.index := by
      rw [hwf.1 k c hck, hwf.1 k0 c0 hk0]; exact hkk
    exact hother c pc hid hix (ht k c pc hck hpc)

theorem tokInv_of_chef {cs : List Customer} {s s' : State} (ht : TokInv cs s)
    (hc : s'.cust = s.cust)
    (h : ∀ (c : Customer) (pc : CustPc), c ∈ cs → CustInv s c pc → CustInv s' c pc) :
    TokInv cs s' := by
  intro k c pc hck hpc
  rw [hc] at hpc
  exact h c pc (List.getElem?_mem hck) (ht k c pc hck hpc)

theorem tokInv_cust_step {cs : List Customer} {s s' : State} {k : Nat} {c0 : Customer}
    (hwf : WellFormed cs) (hq : QInv cs s) (ht : TokInv cs s)
    (hk0 : cs[k]? = some c0) (hc : CustCase s k c0 s') : TokInv cs s' := by
  cases hc with
  | wake h => exact tokInv_of_cust hwf ht hk0 h rfl (fun h => h) (fun _ _ _ _ h => h)
  | enter h hs => exact tokInv_of_cust hwf ht hk0 h rfl (fun h => h) (fun _ _ _ _ h => h)
  | sit h hs => exact tokInv_of_cust hwf ht hk0 h rfl (fun h => h) (fun _ _ _ _ h => h)
  | request h =>
    have hl := q_push_toList s.bake_q c0.id hq.1 (bake_room hq hwf.2.2 h)
    refine tokInv_of_cust hwf ht hk0 h rfl ?_ ?_
    · rintro ⟨i1, i2, i3, i4, i5, i6⟩
      refine ⟨?_, ?_, i3, i4, i5, i6⟩
      · simp only [hl, count_append_singleton_int, if_true, CustPc.cakePending,
          countP_broadcast (ChefPc.bakes _) rfl] at i1 ⊢
        omega
      · simp only [countP_broadcast (ChefPc.pays _) rfl]; exact i2
    · rintro c pc hid hix ⟨i1, i2, i3, i4, i5, i6⟩
      refine ⟨?_, ?_, i3, i4, i5, i6⟩
      · simp only [hl, count_append_singleton_int, if_neg (Ne.symm hid),
          countP_broadcast (ChefPc.bakes _) rfl]
        exact i1
      · simp only [countP_broadcast (ChefPc.pays _) rfl]; exact i2
  | takeCake h hs =>
    refine tokInv_of_cust hwf ht hk0 h rfl ?_ ?_
    · rintro ⟨i1, i2, i3, i4, i5, i6⟩
      refine ⟨?_, i2, ?_, ?_, i5, i6⟩
      · simp only [sem_take_same, CustPc.cakePending] at i1 ⊢; omega
      · simp only [sem_take_same, bump_same]; omega
      · simp only [bump_same, CustPc.cakeWaited] at i4 ⊢; omega
    · rintro c pc hid hix ⟨i1, i2, i3, i4, i5, i6⟩
      refine ⟨?_, i2, ?_, ?_, i5, i6⟩
      · simp only [sem_take_other _ hix]; exact i1
      · simp only [sem_take_other _ hix, bump_other _ hix]; exact i3
      · simp only [bump_other _ hix]; exact i4
  | pay h =>
    have hl := q_push_toList s.pay_q c0.id hq.2.1 (pay_room hq hwf.2.2 h)
    refine tokInv_of_cust hwf ht hk0 h rfl ?_ ?_
    · rintro ⟨i1, i2, i3, i4, i5, i6⟩
      refine ⟨?_, ?_, i3, i4, i5, i6⟩
      · simp only [countP_broadcast (ChefPc.bakes _) rfl]; exact i1
      · simp only [hl, count_append_singleton_int, if_true, CustPc.payPending,
          countP_broadcast (ChefPc.pays _) rfl] at i2 ⊢
        omega
    · rintro c pc hid hix ⟨i1, i2, i3, i4, i5, i6⟩
      refine ⟨?_, ?_, i3, i4, i5, i6⟩
      · simp only [countP_broadcast (ChefPc.bakes _) rfl]; exact i1
      · simp only [hl, count_append_singleton_int, if_neg (Ne.symm hid),
          countP_broadcast (ChefPc.pays _) rfl]
        exact i2
  | paid h hs =>
    refine tokInv_of_cust hwf ht hk0 h rfl ?_ ?_
    · rintro ⟨i1, i2, i3, i4, i5, i6⟩
      refine ⟨i1, ?_, i3, i4, ?_, ?_⟩
      · simp only [sem_take_same, CustPc.payPending] at i2 ⊢; omega
      · simp only [sem_take_same, bump_same]; omega
      · simp only [bump_same, CustPc.payWaited] at i6 ⊢; omega
    · rintro c pc hid hix ⟨i1, i2, i3, i4, i5, i6⟩
      refine ⟨i1, ?_, i3, i4, ?_, ?_⟩
      · simp only [sem_take_other _ hix]; exact i2
      · simp only [sem_take_other _ hix, bump_other _ hix]; exact i5
      · simp only [bump_other _ hix]; exact i6
  | freeSofa h => exact tokInv_of_cust hwf ht hk0 h rfl (fun h => h) (fun _ _ _ _ h => h)
  | freeStore h => exact tokInv_of_cust hwf ht hk0 h rfl (fun h => h) (fun _ _ _ _ h => h)

theorem index_inj {cs : List Customer} (hix : IndexOk cs) {c c' : Customer}
    (hc : c ∈ cs) (hc' : c' ∈ cs) (h : c.index = c'.index) : c = c' := by
  obtain ⟨k, hk⟩ := List.mem_iff_getElem?.mp hc
  obtain ⟨k', hk'⟩ := List.mem_iff_getElem?.mp hc'
  have e1 := hix k c hk
  have e2 := hix k' c' hk'
  have : k = k' := by omega
  subst this
  rw [hk] at hk'
  exact Option.some.inj hk'

/-- Effect of the chef's guarded post for `cid` on the slot of customer `c`: the slot
    is bumped exactly when `c` is the customer with that id. -/
theorem post_effect {cs : List Customer} (hwf : WellFormed cs) (f : Nat → Nat) (cid : Int)
    {c : Customer} (hc : c ∈ cs) :
    post_if_found f (find_idx cs cid) c.index = f c.index + (if cid = c.id then 1 else 0) ∧
    bump_if_found f (find_idx cs cid) c.index = f c.index + (if cid = c.id then 1 else 0) := by
  by_cases hid : cid = c.id
  · subst hid
    rw [find_idx_of_mem cs hwf.2.1 c hc, post_if_found_nat, bump_if_found_nat, bump_same]
    simp
  · rw [if_neg hid]
    rcases find_idx_none_or_found cs cid with hn | ⟨c', hc', hid', hf⟩
    · rw [hn, post_if_found_none, bump_if_found_none]; simp
    · have hne : c.index ≠ c'.index := by
        intro h
        have := index_inj hwf.1 hc hc' h
        rw [this] at hid
        exact hid hid'.symm
      rw [hf, post_if_found_nat, bump_if_found_nat, bump_other _ hne]
      simp

theorem tokInv_chef_step {cs : List Customer} {s s' : State} {j : Nat}
    (hwf : WellFormed cs) (hq : QInv cs s) (ht : TokInv cs s)
    (hc : ChefCase cs s j s') : TokInv cs s' := by
  cases hc with
  | takePay h hp hr =>
    have hl := q_pop_toList s.pay_q hq.2.1 (by omega)
    refine tokInv_of_chef ht rfl ?_
    rintro c pc hcm ⟨i1, i2, i3, i4, i5, i6⟩
    have b := countP_set_of_getElem? (ChefPc.bakes c.id) s.chef j _
      (ChefPc.paying (q_pop s.pay_q).1) h
    have p := countP_set_of_getElem? (ChefPc.pays c.id) s.chef j _
      (ChefPc.paying (q_pop s.pay_q).1) h
    simp only [ChefPc.bakes, ChefPc.pays, Bool.false_eq_true, if_false, Nat.add_zero,
      decide_eq_true_eq] at b p
    rw [hl, count_cons_int] at i2
    refine ⟨?_, ?_, i3, i4, i5, i6⟩
    · simp only [b]; exact i1
    · simp only []; omega
  | takeBake h hn hb =>
    have hl := q_pop_toList s.bake_q hq.1 (by omega)
    refine tokInv_of_chef ht rfl ?_
    rintro c pc hcm ⟨i1, i2, i3, i4, i5, i6⟩
    have b := countP_set_of_getElem? (ChefPc.bakes c.id) s.chef j _
      (ChefPc.baking (q_pop s.bake_q).1) h
    have p := countP_set_of_getElem? (ChefPc.pays c.id) s.chef j _
      (ChefPc.baking (q_pop s.bake_q).1) h
    simp only [ChefPc.bakes, ChefPc.pays, Bool.false_eq_true, if_false, Nat.add_zero,
      decide_eq_true_eq] at b p
    rw [hl, count_cons_int] at i1
    refine ⟨?_, ?_, i3, i4, i5, i6⟩
    · simp only []; omega
    · simp only [p]; exact i2
  | retry h hp hr hb => exact ht
  | postPay cid h =>
    refine tokInv_of_chef ht rfl ?_
    rintro c pc hcm ⟨i1, i2, i3, i4, i5, i6⟩
    have b := countP_set_of_getElem? (ChefPc.bakes c.id) s.chef j _ ChefPc.paid h
    have p := countP_set_of_getElem? (ChefPc.pays c.id) s.chef j _ ChefPc.paid h
    simp only [ChefPc.bakes, ChefPc.pays, Bool.false_eq_true, if_false, Nat.add_zero,
      decide_eq_true_eq] at b p
    have e1 := (post_effect hwf s.pay_done cid hcm).1
    have e2 := (post_effect hwf s.pay_posts cid hcm).2
    refine ⟨?_, ?_, i3, i4, ?_, i6⟩
    · simp only [b]; exact i1
    · simp only [e1]; omega
    · simp only [e1, e2]; omega
  | freeRegister h =>
    refine tokInv_of_chef ht rfl ?_
    rintro c pc hcm ⟨i1, i2, i3, i4, i5, i6⟩
    have b := countP_set_of_getElem? (ChefPc.bakes c.id) s.chef j _ ChefPc.idle h
    have p := countP_set_of_getElem? (ChefPc.pays c.id) s.chef j _ ChefPc.idle h
    simp only [ChefPc.bakes, ChefPc.pays, Bool.false_eq_true, if_false, Nat.add_zero] at b p
    refine ⟨?_, ?_, i3, i4, i5, i6⟩
    · simp only [countP_broadcast (ChefPc.bakes _) rfl, b]; exact i1
    · simp only [countP_broadcast (ChefPc.pays _) rfl, p]; exact i2
  | sleep h hp hb =>
    refine tokInv_of_chef ht rfl ?_
    rintro c pc hcm ⟨i1, i2, i3, i4, i5, i6⟩
    have b := countP_set_of_getElem? (ChefPc.bakes c.id) s.chef j _ ChefPc.waiting h
    have p := countP_set_of_getElem? (ChefPc.pays c.id) s.chef j _ ChefPc.waiting h
    simp only [ChefPc.bakes, ChefPc.pays, Bool.false_eq_true, if_false, Nat.add_zero] at b p
    refine ⟨?_, ?_, i3, i4, i5, i6⟩
    · simp only [b]; exact i1
    · simp only [p]; exact i2
  | spurious h =>
    refine tokInv_of_chef ht rfl ?_
    rintro c pc hcm ⟨i1, i2, i3, i4, i5, i6⟩
    have b := countP_set_of_getElem? (ChefPc.bakes c.id) s.chef j _ ChefPc.idle h
    have p := countP_set_of_getElem? (ChefPc.pays c.id) s.chef j _ ChefPc.idle h
    simp only [ChefPc.bakes, ChefPc.pays, Bool.false_eq_true, if_false, Nat.add_zero] at b p
    refine ⟨?_, ?_, i3, i4, i5, i6⟩
    · simp only [b]; exact i1
    · simp only [p]; exact i2
  | postCake cid h =>
    refine tokInv_of_chef ht rfl ?_
    rintro c pc hcm ⟨i1, i2, i3, i4, i5, i6⟩
    have b := countP_set_of_getElem? (ChefPc.bakes c.id) s.chef j _ ChefPc.idle h
    have p := countP_set_of_getElem? (ChefPc.pays c.id) s.chef j _ ChefPc.idle h
    simp only [ChefPc.bakes, ChefPc.pays, Bool.false_eq_true, if_false, Nat.add_zero,
      decide_eq_true_eq] at b p
    have e1 := (post_effect hwf s.cake_ready cid hcm).1
    have e2 := (post_effect hwf s.cake_posts cid hcm).2
    refine ⟨?_, ?_, ?_, i4, i5, i6⟩
    · simp only [e1]; omega
    · simp only [p]; exact i2
    · simp only [e1, e2]; omega

theorem tokInv_step {cs : List Customer} {s s' : State} (hwf : WellFormed cs)
    (hq : QInv cs s) (ht : TokInv cs s) (hstep : Step cs s s') : TokInv cs s' := by
  rcases step_cases hstep with ⟨k, c, hck, hc⟩ | ⟨j, hc⟩
  · exact tokInv_cust_step hwf hq ht hck hc
  · exact tokInv_chef_step hwf hq ht hc

theorem tokInv_reachable {cs : List Customer} {n : Nat} {s : State}
    (hwf : WellFormed cs) (h : Reachable cs n s) : TokInv cs s := by
  induction h with
  | init => exact tokInv_init cs n
  | step hr hstep ih => exact tokInv_step hwf (qInv_reachable hwf.2.2 hr) ih hstep

/-! ### The loaded batch is well formed -/

theorem normalize_arrivals_index_id (cs : List Customer) :
    (normalize_arrivals cs).1.map (fun c => (c.index, c.id)) =
      cs.map (fun c => (c.index, c.id)) := by
  cases cs with
  | nil => rfl
  | cons c0 rest => simp [normalize_arrivals]

theorem main_setup_wellFormed (recs : List Arrival) (hlen : recs.length ≤ MAXN)
    (hids : (recs.map (fun r => r.id)).Nodup) : WellFormed (main_setup recs).1 := by
  obtain ⟨⟨hl, hperm, hidx⟩, _⟩ :=
    sort_by_arrival_spec (load_customers 0 recs) (load_customers_indexOk recs)
  rw [load_customers_content] at hperm
  rw [load_customers_length] at hl
  have hkey := normalize_arrivals_index_id (sort_by_arrival (load_customers 0 recs))
  have hlen' : (main_setup recs).1.length = recs.length := by
    have := congrArg List.length hkey
    simp only [List.length_map] at this
    unfold main_setup; rw [this, hl]
  refine ⟨?_, ?_, by rw [hlen']; exact hlen⟩
  · intro k c hk
    have h1 : ((main_setup recs).1.map (fun c => (c.index, c.id)))[k]? =
        some (c.index, c.id) := by rw [List.getElem?_map, hk]; rfl
    unfold main_setup at h1
    rw [hkey, List.getElem?_map] at h1
    cases hd : (sort_by_arrival (load_customers 0 recs))[k]? with
    | none => rw [hd] at h1; exact absurd h1 (by simp)
    | some d =>
      rw [hd] at h1
      simp only [Option.map_some', Option.some.injEq, Prod.mk.injEq] at h1
      rw [← h1.1]; exact hidx k d hd
  · have h1 : (main_setup recs).1.map Customer.id =
        (sort_by_arrival (load_customers 0 recs)).map Customer.id := by
      have := congrArg (List.map Prod.snd) hkey
      simpa [List.map_map, Function.comp, main_setup] using this
    have h2 : ((sort_by_arrival (load_customers 0 recs)).map Customer.id).Perm
        (recs.map (fun r => r.id)) := by
      have := hperm.map Prod.snd
      simpa [List.map_map, Function.comp, Customer.content] using this
    rw [h1]
    exact h2.nodup_iff.mpr hids

/-! ### Exactly-once signalling -/

theorem custInv_bounds {s : State} {c : Customer} {pc : CustPc} (h : CustInv s c pc) :
    s.cake_posts c.index ≤ 1 ∧ s.pay_posts c.index ≤ 1 ∧
    s.pay_posts c.index ≤ s.cake_posts c.index ∧
    s.cake_waits c.index ≤ s.cake_posts c.index ∧
    s.pay_waits c.index ≤ s.pay_posts c.index ∧
    (pc.payWaited = 1 →
      s.cake_posts c.index = 1 ∧ s.cake_waits c.index = 1 ∧
      s.pay_posts c.index = 1 ∧ s.pay_waits c.index = 1) := by
  obtain ⟨i1, i2, i3, i4, i5, i6⟩ := h
  cases pc <;>
    simp only [CustPc.cakePending, CustPc.payPending, CustPc.cakeWaited,
      CustPc.payWaited] at i1 i2 i4 i6 ⊢ <;>
    omega

theorem chef_holds_pending {cs : List Customer} {s : State} (hwf : WellFormed cs)
    (hq : QInv cs s) (hk : KnownInv cs s) (ht : TokInv cs s) (j : Nat) (cid : Int) :
    (s.chef[j]? = some (ChefPc.baking cid) →
      ∃ (k : Nat) (c : Customer), cs[k]? = some c ∧ c.id = cid ∧ c.index = k ∧
        find_idx cs cid = (k : Int) ∧ s.cust[k]? = some CustPc.requested) ∧
    (s.chef[j]? = some (ChefPc.paying cid) →
      ∃ (k : Nat) (c : Customer), cs[k]? = some c ∧ c.id = cid ∧ c.index = k ∧
        find_idx cs cid = (k : Int) ∧ s.cust[k]? = some CustPc.paying) := by
  constructor
  · intro hj
    obtain ⟨c, hcm, hid⟩ := hk.2.2.1 j cid hj
    obtain ⟨k, hck⟩ := List.mem_iff_getElem?.mp hcm
    have hkl : k < s.cust.length := by
      rw [hq.2.2.1]
      rcases Nat.lt_or_ge k cs.length with h | h
      · exact h
      · rw [List.getElem?_eq_none h] at hck; exact absurd hck (by simp)
    have hpc : s.cust[k]? = some s.cust[k] := List.getElem?_eq_getElem hkl
    obtain ⟨i1, _⟩ := ht k c _ hck hpc
    have hpos := countP_pos_of_getElem? (ChefPc.bakes c.id) s.chef j _ hj
      (by simp [ChefPc.bakes, hid])
    have hix := hwf.1 k c hck
    refine ⟨k, c, hck, hid, hix, ?_, ?_⟩
    · rw [← hid, find_idx_of_mem cs hwf.2.1 c hcm, hix]
    · rw [hpc]
      generalize s.cust[k] = pc at i1
      cases pc <;> simp only [CustPc.cakePending] at i1 <;> first | rfl | omega
  · intro hj
    obtain ⟨c, hcm, hid⟩ := hk.2.2.2 j cid hj
    obtain ⟨k, hck⟩ := List.mem_iff_getElem?.mp hcm
    have hkl : k < s.cust.length := by
      rw [hq.2.2.1]
      rcases Nat.lt_or_ge k cs.length with h | h
      · exact h
      · rw [List.getElem?_eq_none h] at hck; exact absurd hck (by simp)
    have hpc : s.cust[k]? = some s.cust[k] := List.getElem?_eq_getElem hkl
    obtain ⟨_, i2, _⟩ := ht k c _ hck hpc
    have hpos := countP_pos_of_getElem? (ChefPc.pays c.id) s.chef j _ hj
      (by simp [ChefPc.pays, hid])
    have hix := hwf.1 k c hck
    refine ⟨k, c, hck, hid, hix, ?_, ?_⟩
    · rw [← hid, find_idx_of_mem cs hwf.2.1 c hcm, hix]
    · rw [hpc]
      generalize s.cust[k] = pc at i2
      cases pc <;> simp only [CustPc.payPending] at i2 <;> first | rfl | omega

theorem doneState_reachable : Reachable demoCustomers NUM_CHEFS doneState :=
  reachable_of_run_schedule doneSchedule Reachable.init (by rfl)

/-- C5: for every batch with unique customer ids (at most `MAXN` of them), in every
    reachable state of every run: (1) for each customer, its slot index is its position
    and the chef's linear search for its id returns that slot; its cake-ready and
    payment-done semaphores have each been posted at most once; payment-done has been
    posted only if cake-ready has (cake-ready comes first); waits never exceed posts;
    and once the customer has reached "leaves", each of the two signals has been posted
    exactly once and waited exactly once.  (2) Whenever a chef holds a dequeued id
    (baking or accepting payment), that id belongs to a loaded customer who is waiting at
    that stage, the search returns that customer's slot, and the chef's next step
    posts exactly that slot's semaphore. -/
theorem exactly_once_signalling (recs : List Arrival) (n : Nat)
    (hlen : recs.length ≤ MAXN) (hids : (recs.map (fun r => r.id)).Nodup)
    (s : State) (hr : Reachable (main_setup recs).1 n s) :
    (∀ (k : Nat) (c : Customer) (pc : CustPc),
      (main_setup recs).1[k]? = some c → s.cust[k]? = some pc →
        c.index = k ∧ find_idx (main_setup recs).1 c.id = (k : Int) ∧
        s.cake_posts k ≤ 1 ∧ s.pay_posts k ≤ 1 ∧
        s.pay_posts k ≤ s.cake_posts k ∧
        s.cake_waits k ≤ s.cake_posts k ∧ s.pay_waits k ≤ s.pay_posts k ∧
        ((pc = CustPc.leaving ∨ pc = CustPc.sofaFreed ∨ pc = CustPc.departed) →
          s.cake_posts k = 1 ∧ s.cake_waits k = 1 ∧
          s.pay_posts k = 1 ∧ s.pay_waits k = 1)) ∧
    (∀ (j : Nat) (cid : Int),
      (s.chef[j]? = some (ChefPc.baking cid) →
        ∃ (k : Nat) (c : Customer) (s' : State),
          (main_setup recs).1[k]? = some c ∧ c.id = cid ∧ c.index = k ∧
          find_idx (main_setup recs).1 cid = (k : Int) ∧
          s.cust[k]? = some CustPc.requested ∧
          chef_step (main_setup recs).1 s j = some s' ∧
          s'.cake_ready k = s.cake_ready k + 1 ∧ s'.cake_posts k = s.cake_posts k + 1 ∧
          (∀ i, i ≠ k → s'.cake_ready i = s.cake_ready i) ∧
          (∀ i, s'.pay_done i = s.pay_done i)) ∧
      (s.chef[j]? = some (ChefPc.paying cid) →
        ∃ (k : Nat) (c : Customer) (s' : State),
          (main_setup recs).1[k]? = some c ∧ c.id = cid ∧ c.index = k ∧
          find_idx (main_setup recs).1 cid = (k : Int) ∧
          s.cust[k]? = some CustPc.paying ∧
          chef_step (main_setup recs).1 s j = some s' ∧
          s'.pay_done k = s.pay_done k + 1 ∧ s'.pay_posts k = s.pay_posts k + 1 ∧
          (∀ i, i ≠ k → s'.pay_done i = s.pay_done i) ∧
          (∀ i, s'.cake_ready i = s.cake_ready i))) := by
  have hwf := main_setup_wellFormed recs hlen hids
  have hq := qInv_reachable hwf.2.2 hr
  have hk := knownInv_reachable hwf.2.2 hr
  have ht := tokInv_reachable hwf hr
  constructor
  · intro k c pc hck hpc
    have hix := hwf.1 k c hck
    have hb := custInv_bounds (ht k c pc hck hpc)
    rw [hix] at hb
    obtain ⟨b1, b2, b3, b4, b5, b6⟩ := hb
    refine ⟨hix, ?_, b1, b2, b3, b4, b5, ?_⟩
    · rw [find_idx_of_mem _ hwf.2.1 c (List.getElem?_mem hck), hix]
    · intro hpc'
      apply b6
      rcases hpc' with h | h | h <;> rw [h] <;> rfl
  · intro j cid
    obtain ⟨hbk, hpy⟩ := chef_holds_pending hwf hq hk ht j cid
    constructor
    · intro hj
      obtain ⟨k, c, hck, hid, hix, hf, hpc⟩ := hbk hj
      refine ⟨k, c, _, hck, hid, hix, hf, hpc, by simp only [chef_step, hj]; rfl, ?_, ?_, ?_, ?_⟩
      · simp only [hf, post_if_found_nat, bump_same]
      · simp only [hf, bump_if_found_nat, bump_same]
      · intro i hi; simp only [hf, post_if_found_nat, bump_other _ hi]
      · intro i; rfl
    · intro hj
      obtain ⟨k, c, hck, hid, hix, hf, hpc⟩ := hpy hj
      refine ⟨k, c, _, hck, hid, hix, hf, hpc, by simp only [chef_step, hj]; rfl, ?_, ?_, ?_, ?_⟩
      · simp only [hf, post_if_found_nat, bump_same]
      · simp only [hf, bump_if_found_nat, bump_same]
      · intro i hi; simp only [hf, post_if_found_nat, bump_other _ hi]
      · intro i; rfl

/-- Witness for C5: the batch `demoArrivals` (ids 1 and 2) run to completion; customer 1
    (slot 0) has departed with one post and one wait on each of its semaphores. -/
theorem exactly_once_signalling_witness :
    (main_setup demoArrivals).1 = demoCustomers ∧
    doneState.cust = [CustPc.departed, CustPc.departed] ∧
    doneState.cake_posts 0 = 1 ∧ doneState.cake_waits 0 = 1 ∧
    doneState.pay_posts 0 = 1 ∧ doneState.pay_waits 0 = 1 :=
  ⟨by decide, by decide,
   ((exactly_once_signalling demoArrivals NUM_CHEFS (by decide) (by decide) doneState
      doneState_reachable).1 0 ⟨1, 0, 0⟩ CustPc.departed (by decide) (by decide)).2.2.2.2.2.2.2
      (Or.inr (Or.inr rfl))⟩

/-! ### Progress measure -/

theorem sum_map_set_of_getElem? {α : Type} (f : α → Nat) :
    ∀ (l : List α) (k : Nat) (a x : α), l[k]? = some a →
      ((l.set k x).map f).sum + f a = (l.map f).sum + f x := by
  intro l
  induction l with
  | nil => intro k a x h; simp at h
  | cons y l ih =>
    intro k a x h
    cases k with
    | zero =>
      simp only [List.getElem?_cons_zero, Option.some.injEq] at h
      subst h
      simp only [List.set_cons_zero, List.map_cons, List.sum_cons]
      omega
    | succ k =>
      simp only [List.getElem?_cons_succ] at h
      have := ih k a x h
      simp only [List.set_cons_succ, List.map_cons, List.sum_cons]
      omega

theorem work_custCase {s s' : State} {k : Nat} {c : Customer} (hc : CustCase s k c s') :
    work s' + 1 = work s := by
  cases hc with
  | wake h =>
    have := sum_map_set_of_getElem? CustPc.remaining s.cust k _ CustPc.active h
    simp only [CustPc.remaining] at this
    simp only [work]; omega
  | enter h hs =>
    have := sum_map_set_of_getElem? CustPc.remaining s.cust k _ CustPc.inside h
    simp only [CustPc.remaining] at this
    simp only [work]; omega
  | sit h hs =>
    have := sum_map_set_of_getElem? CustPc.remaining s.cust k _ CustPc.seated h
    simp only [CustPc.remaining] at this
    simp only [work]; omega
  | request h =>
    have := sum_map_set_of_getElem? CustPc.remaining s.cust k _ CustPc.requested h
    simp only [CustPc.remaining] at this
    simp only [work, q_push_count, sum_remaining_broadcast]; omega
  | takeCake h hs =>
    have := sum_map_set_of_getElem? CustPc.remaining s.cust k _ CustPc.cakeReceived h
    simp only [CustPc.remaining] at this
    simp only [work]; omega
  | pay h =>
    have := sum_map_set_of_getElem? CustPc.remaining s.cust k _ CustPc.paying h
    simp only [CustPc.remaining] at this
    simp only [work, q_push_count, sum_remaining_broadcast]; omega
  | paid h hs =>
    have := sum_map_set_of_getElem? CustPc.remaining s.cust k _ CustPc.leaving h
    simp only [CustPc.remaining] at this
    simp only [work]; omega
  | freeSofa h =>
    have := sum_map_set_of_getElem? CustPc.remaining s.cust k _ CustPc.sofaFreed h
    simp only [CustPc.remaining] at this
    simp only [work]; omega
  | freeStore h =>
    have := sum_map_set_of_getElem? CustPc.remaining s.cust k _ CustPc.departed h
    simp only [CustPc.remaining] at this
    simp only [work]; omega

/-- A chef step (or spurious wake-up) lowers the work by one, unless it is an
    empty-handed retry, the start of a wait, or a spurious wake-up; these three change
    at most the stepping chef's program point, between `idle` and `waiting`. -/
theorem work_chefCase {cs : List Customer} {s s' : State} {j : Nat}
    (hc : ChefCase cs s j s') :
    (work s' = work s ∧
      ((s' = s ∧ s.chef[j]? = some ChefPc.idle ∧ s.pay_q.count > 0 ∧
          s.cash_register_busy ≠ 0 ∧ s.bake_q.count = 0) ∨
       (s' = { s with chef := s.chef.set j ChefPc.waiting } ∧
          s.chef[j]? = some ChefPc.idle ∧ s.pay_q.count = 0 ∧ s.bake_q.count = 0) ∨
       (s' = { s with chef := s.chef.set j ChefPc.idle } ∧
          s.chef[j]? = some ChefPc.waiting))) ∨
    work s' + 1 = work s := by
  cases hc with
  | takePay h hp hr =>
    right
    have := sum_map_set_of_getElem? ChefPc.remaining s.chef j _
      (ChefPc.paying (q_pop s.pay_q).1) h
    simp only [ChefPc.remaining] at this
    simp only [work, q_pop_count]; omega
  | takeBake h hn hb =>
    right
    have := sum_map_set_of_getElem? ChefPc.remaining s.chef j _
      (ChefPc.baking (q_pop s.bake_q).1) h
    simp only [ChefPc.remaining] at this
    simp only [work, q_pop_count]; omega
  | retry h hp hr hb => left; exact ⟨rfl, Or.inl ⟨rfl, h, hp, hr, hb⟩⟩
  | sleep h hp hb =>
    left
    have := sum_map_set_of_getElem? ChefPc.remaining s.chef j _ ChefPc.waiting h
    simp only [ChefPc.remaining] at this
    refine ⟨?_, Or.inr (Or.inl ⟨rfl, h, hp, hb⟩)⟩
    simp only [work]; omega
  | postPay cid h =>
    right
    have := sum_map_set_of_getElem? ChefPc.remaining s.chef j _ ChefPc.paid h
    simp only [ChefPc.remaining] at this
    simp only [work]; omega
  | freeRegister h =>
    right
    have := sum_map_set_of_getElem? ChefPc.remaining s.chef j _ ChefPc.idle h
    simp only [ChefPc.remaining] at this
    simp only [work, sum_remaining_broadcast]; omega
  | postCake cid h =>
    right
    have := sum_map_set_of_getElem? ChefPc.remaining s.chef j _ ChefPc.idle h
    simp only [ChefPc.remaining] at this
    simp only [work]; omega
  | spurious h =>
    left
    have := sum_map_set_of_getElem? ChefPc.remaining s.chef j _ ChefPc.idle h
    simp only [ChefPc.remaining] at this
    refine ⟨?_, Or.inr (Or.inr ⟨rfl, h⟩)⟩
    simp only [work]; omega

theorem step_work {cs : List Customer} {s s' : State} (h : Step cs s s') :
    work s' = work s ∨ work s' + 1 = work s := by
  rcases step_cases h with ⟨k, c, _, hc⟩ | ⟨j, hc⟩
  · exact Or.inr (work_custCase hc)
  · rcases work_chefCase hc with h | h
    · exact Or.inl h.1
    · exact Or.inr h

theorem work_init (cs : List Customer) (n : Nat) : work (initState cs n) = 14 * cs.length := by
  have h1 : ∀ m, ((List.replicate m CustPc.dormant).map CustPc.remaining).sum = 14 * m := by
    intro m
    induction m with
    | zero => rfl
    | succ m ih => simp only [List.replicate_succ, List.map_cons, List.sum_cons, ih,
        CustPc.remaining]; omega
  have h2 : ∀ m, ((List.replicate m ChefPc.idle).map ChefPc.remaining).sum = 0 := by
    intro m
    induction m with
    | zero => rfl
    | succ m ih => simp only [List.replicate_succ, List.map_cons, List.sum_cons, ih,
        ChefPc.remaining]
  simp only [work, initState, h1, h2, q_init]
  omega

theorem work_le_init {cs : List Customer} {n : Nat} {s : State} (h : Reachable cs n s) :
    work s ≤ 14 * cs.length := by
  induction h with
  | init => rw [work_init]
  | step _ hstep ih =>
    rcases step_work hstep with h | h <;> omega

theorem chef_length_reachable {cs : List Customer} {n : Nat} {s : State}
    (h : Reachable cs n s) : s.chef.length = n := by
  induction h with
  | init => simp [initState]
  | step _ hstep ih =>
    rcases step_cases hstep with ⟨k, c, _, hc⟩ | ⟨j, hc⟩
    · cases hc <;> first | exact ih | (simp only [broadcast_length]; exact ih)
    · cases hc <;>
        first
        | exact ih
        | (simp only [List.length_set]; exact ih)
        | (simp only [broadcast_length, List.length_set]; exact ih)

theorem chef_select_bake (s : State)
    (hn : ¬ (s.pay_q.count > 0 ∧ s.cash_register_busy = 0)) (hb : s.bake_q.count > 0) :
    chef_select s = ({ s with bake_q := (q_pop s.bake_q).2 },
      ChefChoice.bake (q_pop s.bake_q).1) := by
  have h1 : chef_must_wait s = false := by
    have : s.bake_q.count ≠ 0 := by omega
    simp [chef_must_wait, this]
  unfold chef_select
  rw [h1]
  simp only [Bool.false_eq_true, if_false, hn, hb, if_true]

/-! ### No chef sleeps while work is queued -/

theorem waitInv_init (cs : List Customer) (n : Nat) : WaitInv (initState cs n) := by
  intro _
  simp [initState, q_init]

theorem no_waiting_after_broadcast (l : List ChefPc) :
    ¬ ∃ j : Nat, (broadcast l)[j]? = some ChefPc.waiting := by
  rintro ⟨j, hj⟩
  exact (broadcast_getElem? hj).1 rfl

theorem waitInv_step {cs : List Customer} {s s' : State} (hw : WaitInv s)
    (hstep : Step cs s s') : WaitInv s' := by
  rcases step_cases hstep with ⟨k, c, _, hc⟩ | ⟨j, hc⟩
  · cases hc with
    | wake h => exact hw
    | enter h hs => exact hw
    | sit h hs => exact hw
    | request h => exact fun hex => absurd hex (no_waiting_after_broadcast _)
    | takeCake h hs => exact hw
    | pay h => exact fun hex => absurd hex (no_waiting_after_broadcast _)
    | paid h hs => exact hw
    | freeSofa h => exact hw
    | freeStore h => exact hw
  · cases hc with
    | takePay h hp hr =>
      rintro ⟨i, hi⟩
      rcases getElem?_set_cases hi with ⟨_, he⟩ | hold
      · exact absurd he (by simp)
      · have := (hw ⟨i, hold⟩).1
        omega
    | takeBake h hn hb =>
      rintro ⟨i, hi⟩
      rcases getElem?_set_cases hi with ⟨_, he⟩ | hold
      · exact absurd he (by simp)
      · have := (hw ⟨i, hold⟩).2
        omega
    | retry h hp hr hb => exact hw
    | sleep h hp hb => exact fun _ => ⟨hp, hb⟩
    | postPay cid h =>
      rintro ⟨i, hi⟩
      rcases getElem?_set_cases hi with ⟨_, he⟩ | hold
      · exact absurd he (by simp)
      · exact hw ⟨i, hold⟩
    | freeRegister h => exact fun hex => absurd hex (no_waiting_after_broadcast _)
    | postCake cid h =>
      rintro ⟨i, hi⟩
      rcases getElem?_set_cases hi with ⟨_, he⟩ | hold
      · exact absurd he (by simp)
      · exact hw ⟨i, hold⟩
    | spurious h =>
      rintro ⟨i, hi⟩
      rcases getElem?_set_cases hi with ⟨_, he⟩ | hold
      · exact absurd he (by simp)
      · exact hw ⟨i, hold⟩

theorem waitInv_reachable {cs : List Customer} {n : Nat} {s : State}
    (h : Reachable cs n s) : WaitInv s := by
  induction h with
  | init => exact waitInv_init cs n
  | step _ hstep ih => exact waitInv_step ih hstep

/-! ### Deadlock freedom -/

theorem progresses_of_customer_step {cs : List Customer} {s s' : State} {k : Nat}
    (h : customer_step cs s k = some s') : Progresses cs s (Thread.cust k) := by
  obtain ⟨c, _, hc⟩ := customer_step_cases h
  exact ⟨s', h, work_custCase hc⟩

theorem chefReady_of_progresses {cs : List Customer} {s : State} {j : Nat}
    (h : Progresses cs s (Thread.chef j)) : chefReady s j := by
  obtain ⟨s', hs', hw⟩ := h
  have hc := chef_step_cases hs'
  unfold chefReady
  cases hc with
  | takePay h hp hr => simp only [h]; exact Or.inl ⟨hp, hr⟩
  | takeBake h hn hb => simp only [h]; exact Or.inr hb
  | retry h hp hr hb => omega
  | sleep h hp hb =>
    have := sum_map_set_of_getElem? ChefPc.remaining s.chef j _ ChefPc.waiting h
    simp only [ChefPc.remaining, work] at this hw
    omega
  | postPay cid h => simp only [h]
  | freeRegister h => simp only [h]
  | postCake cid h => simp only [h]
  | spurious h =>
    simp only [thread_step, chef_step, h] at hs'
    exact absurd hs' (by simp)

theorem progresses_of_chefReady {cs : List Customer} {s : State} {j : Nat}
    (h : chefReady s j) : Progresses cs s (Thread.chef j) := by
  unfold chefReady at h
  have key : ∀ s', chef_step cs s j = some s' →
      (s.chef[j]? = some ChefPc.idle →
        (s.pay_q.count > 0 ∧ s.cash_register_busy = 0) ∨ s.bake_q.count > 0) →
      s.chef[j]? ≠ some ChefPc.waiting → Progresses cs s (Thread.chef j) := by
    intro s' hs' hidle hnw
    refine ⟨s', hs', ?_⟩
    rcases work_chefCase (chef_step_cases hs') with ⟨_, h1 | h1 | h1⟩ | h1
    · rcases hidle h1.2.1 with h2 | h2
      · exact absurd h2.2 h1.2.2.2.1
      · omega
    · rcases hidle h1.2.1 with h2 | h2 <;> omega
    · exact absurd h1.2 hnw
    · exact h1
  cases hj : s.chef[j]? with
  | none => simp only [hj] at h
  | some a =>
    rw [hj] at h
    cases a with
    | idle =>
      simp only at h
      rcases h with hp | hb
      · exact key _ (by simp only [chef_step, hj, chef_select_pay s hp.1 hp.2]; rfl)
          (fun _ => Or.inl hp) (by simp [hj])
      · by_cases hp : s.pay_q.count > 0 ∧ s.cash_register_busy = 0
        · exact key _ (by simp only [chef_step, hj, chef_select_pay s hp.1 hp.2]; rfl)
            (fun _ => Or.inl hp) (by simp [hj])
        · exact key _ (by simp only [chef_step, hj, chef_select_bake s hp hb]; rfl)
            (fun _ => Or.inr hb) (by simp [hj])
    | waiting => simp only at h
    | paying cid =>
      exact key _ (by simp only [chef_step, hj]; rfl) (fun h => by simp [hj] at h)
        (by simp [hj])
    | paid =>
      exact key _ (by simp only [chef_step, hj]; rfl) (fun h => by simp [hj] at h)
        (by simp [hj])
    | baking cid =>
      exact key _ (by simp only [chef_step, hj]; rfl) (fun h => by simp [hj] at h)
        (by simp [hj])

/-- Deadlock freedom: in a reachable state with a customer that has not departed,
    some customer or chef thread has an enabled step that lowers the outstanding work. -/
theorem progress {cs : List Customer} {n : Nat} {s : State} (hwf : WellFormed cs)
    (hn : 1 ≤ n) (hr : Reachable cs n s)
    (hund : ∃ (k : Nat) (pc : CustPc), s.cust[k]? = some pc ∧ pc ≠ CustPc.departed) :
    ∃ t : Thread, t.runs cs n ∧ Progresses cs s t := by
  have hreg := regInv_reachable hr
  have hcap := capInv_reachable hr
  have hq := qInv_reachable hwf.2.2 hr
  have ht := tokInv_reachable hwf hr
  have hcl := chef_length_reachable hr
  have hwait := waitInv_reachable hr
  have cust_runs : ∀ k, k < cs.length → (Thread.cust k).runs cs n := fun k h => h
  have chef_runs : ∀ j, j < n → (Thread.chef j).runs cs n := fun j h => h
  by_cases hchef : ∃ (j : Nat) (a : ChefPc), s.chef[j]? = some a ∧
      a ≠ ChefPc.idle ∧ a ≠ ChefPc.waiting
  · obtain ⟨j, a, hj, ha, ha'⟩ := hchef
    refine ⟨Thread.chef j, chef_runs j (by rw [← hcl]; exact getElem?_lt_length hj), ?_⟩
    apply progresses_of_chefReady
    unfold chefReady
    rw [hj]
    cases a with
    | idle => exact absurd rfl ha
    | waiting => exact absurd rfl ha'
    | paying cid => trivial
    | paid => trivial
    | baking cid => trivial
  · have hidle : ∀ (j : Nat) (a : ChefPc), s.chef[j]? = some a →
        a = ChefPc.idle ∨ a = ChefPc.waiting := by
      intro j a hj
      by_contra hne
      simp only [not_or] at hne
      exact hchef ⟨j, a, hj, hne.1, hne.2⟩
    have hmem : ∀ a ∈ s.chef, a = ChefPc.idle ∨ a = ChefPc.waiting := by
      intro a ha
      obtain ⟨j, hj⟩ := List.mem_iff_getElem?.mp ha
      exact hidle j a hj
    have hbusy : s.cash_register_busy = 0 := by
      rw [hreg.1, List.countP_eq_zero]
      intro a ha
      rcases hmem a ha with h | h <;> rw [h] <;> decide
    have hlt0 : 0 < s.chef.length := by omega
    have h0 : s.chef[0]? = some s.chef[0] := List.getElem?_eq_getElem hlt0
    by_cases hwork : s.pay_q.count > 0 ∨ s.bake_q.count > 0
    · have h0i : s.chef[0]? = some ChefPc.idle := by
        rcases hidle 0 _ h0 with h | h
        · rw [h0, h]
        · have := hwait ⟨0, by rw [h0, h]⟩
          omega
      refine ⟨Thread.chef 0, chef_runs 0 (by omega), ?_⟩
      apply progresses_of_chefReady
      unfold chefReady
      rw [h0i]
      rcases hwork with hp | hb
      · exact Or.inl ⟨hp, hbusy⟩
      · exact Or.inr hb
    have hbq : s.bake_q.toList = [] := by
      have : s.bake_q.count = 0 := by omega
      simp [Queue.toList, this]
    have hpq : s.pay_q.toList = [] := by
      have : s.pay_q.count = 0 := by omega
      simp [Queue.toList, this]
    have hcb : ∀ cid, s.chef.countP (ChefPc.bakes cid) = 0 := by
      intro cid
      rw [List.countP_eq_zero]
      intro a ha
      rcases hmem a ha with h | h <;> rw [h] <;> simp [ChefPc.bakes]
    have hcp : ∀ cid, s.chef.countP (ChefPc.pays cid) = 0 := by
      intro cid
      rw [List.countP_eq_zero]
      intro a ha
      rcases hmem a ha with h | h <;> rw [h] <;> simp [ChefPc.pays]
    have of_step : ∀ (k : Nat), k < cs.length →
        (∃ s', customer_step cs s k = some s') → ∃ t : Thread, t.runs cs n ∧ Progresses cs s t :=
      fun k hk ⟨_, hs'⟩ => ⟨Thread.cust k, cust_runs k hk, progresses_of_customer_step hs'⟩
    by_cases hex : ∃ (k : Nat) (pc : CustPc), s.cust[k]? = some pc ∧
        pc ≠ CustPc.active ∧ pc ≠ CustPc.inside ∧ pc ≠ CustPc.departed
    · obtain ⟨k, pc, hpc, h1, h2, h3⟩ := hex
      have hkl : k < cs.length := by rw [← hq.2.2.1]; exact getElem?_lt_length hpc
      have hck : cs[k]? = some cs[k] := List.getElem?_eq_getElem hkl
      obtain ⟨i1, i2, _⟩ := ht k cs[k] pc hck hpc
      rw [hbq, hcb] at i1
      rw [hpq, hcp] at i2
      simp only [List.count_nil, Nat.zero_add] at i1 i2
      apply of_step k hkl
      cases pc with
      | dormant => exact ⟨_, by simp only [customer_step, hck, hpc]; rfl⟩
      | active => exact absurd rfl h1
      | inside => exact absurd rfl h2
      | seated => exact ⟨_, by simp only [customer_step, hck, hpc]; rfl⟩
      | requested =>
        have hne : s.cake_ready cs[k].index ≠ 0 := by
          simp only [CustPc.cakePending] at i1; omega
        exact ⟨_, by simp only [customer_step, hck, hpc, hne, if_false]; rfl⟩
      | cakeReceived => exact ⟨_, by simp only [customer_step, hck, hpc]; rfl⟩
      | paying =>
        have hne : s.pay_done cs[k].index ≠ 0 := by
          simp only [CustPc.payPending] at i2; omega
        exact ⟨_, by simp only [customer_step, hck, hpc, hne, if_false]; rfl⟩
      | leaving => exact ⟨_, by simp only [customer_step, hck, hpc]; rfl⟩
      | sofaFreed => exact ⟨_, by simp only [customer_step, hck, hpc]; rfl⟩
      | departed => exact absurd rfl h3
    · have hall : ∀ (k : Nat) (pc : CustPc), s.cust[k]? = some pc →
          pc = CustPc.active ∨ pc = CustPc.inside ∨ pc = CustPc.departed := by
        intro k pc hpc
        by_contra hne
        simp only [not_or] at hne
        exact hex ⟨k, pc, hpc, hne.1, hne.2.1, hne.2.2⟩
      have hsofa : s.cust.countP CustPc.holdsSofa = 0 := by
        rw [List.countP_eq_zero]
        intro a ha
        obtain ⟨k, hk⟩ := List.mem_iff_getElem?.mp ha
        rcases hall k a hk with h | h | h <;> rw [h] <;> decide
      have hsem : s.sofa_sem ≠ 0 := by
        have := hcap.2
        rw [hsofa] at this
        simp only [SOFA_CAPACITY] at this
        omega
      by_cases hin : ∃ k : Nat, s.cust[k]? = some CustPc.inside
      · obtain ⟨k, hpc⟩ := hin
        have hkl : k < cs.length := by rw [← hq.2.2.1]; exact getElem?_lt_length hpc
        have hck : cs[k]? = some cs[k] := List.getElem?_eq_getElem hkl
        exact of_step k hkl
          ⟨_, by simp only [customer_step, hck, hpc, hsem, if_false]; rfl⟩
      · have hall2 : ∀ (k : Nat) (pc : CustPc), s.cust[k]? = some pc →
            pc = CustPc.active ∨ pc = CustPc.departed := by
          intro k pc hpc
          rcases hall k pc hpc with h | h | h
          · exact Or.inl h
          · exact absurd ⟨k, h ▸ hpc⟩ hin
          · exact Or.inr h
        have hins : s.cust.countP CustPc.holdsInside = 0 := by
          rw [List.countP_eq_zero]
          intro a ha
          obtain ⟨k, hk⟩ := List.mem_iff_getElem?.mp ha
          rcases hall2 k a hk with h | h <;> rw [h] <;> decide
        have hsem2 : s.inside_sem ≠ 0 := by
          have := hcap.1
          rw [hins] at this
          simp only [MAX_CAPACITY] at this
          omega
        obtain ⟨k, pc, hpc, hnd⟩ := hund
        have hact : pc = CustPc.active := by
          rcases hall2 k pc hpc with h | h
          · exact h
          · exact absurd h hnd
        rw [hact] at hpc
        have hkl : k < cs.length := by rw [← hq.2.2.1]; exact getElem?_lt_length hpc
        have hck : cs[k]? = some cs[k] := List.getElem?_eq_getElem hkl
        exact of_step k hkl
          ⟨_, by simp only [customer_step, hck, hpc, hsem2, if_false]; rfl⟩

/-! ### Liveness under fair scheduling -/

theorem customer_step_isSome_congr (cs : List Customer) (s s' : State) (k : Nat)
    (h1 : s'.cust = s.cust) (h2 : s'.inside_sem = s.inside_sem)
    (h3 : s'.sofa_sem = s.sofa_sem) (h4 : s'.cake_ready = s.cake_ready)
    (h5 : s'.pay_done = s.pay_done) :
    (customer_step cs s' k).isSome = (customer_step cs s k).isSome := by
  unfold customer_step
  rw [h1, h2, h3, h4, h5]
  cases cs[k]? with
  | none => rfl
  | some c =>
    cases s.cust[k]? with
    | none => rfl
    | some pc =>
      cases pc <;> simp only [] <;> first | rfl | (split <;> rfl)

theorem progresses_cust_congr {cs : List Customer} {s s' : State} {k : Nat}
    (hp : Progresses cs s (Thread.cust k))
    (h1 : s'.cust = s.cust) (h2 : s'.inside_sem = s.inside_sem)
    (h3 : s'.sofa_sem = s.sofa_sem) (h4 : s'.cake_ready = s.cake_ready)
    (h5 : s'.pay_done = s.pay_done) : Progresses cs s' (Thread.cust k) := by
  obtain ⟨r, hr, _⟩ := hp
  have hs : (customer_step cs s k).isSome = true := by
    simp only [thread_step] at hr
    rw [hr]; rfl
  rw [← customer_step_isSome_congr cs s s' k h1 h2 h3 h4 h5] at hs
  obtain ⟨r', hr'⟩ := Option.isSome_iff_exists.mp hs
  exact progresses_of_customer_step hr'

theorem work_spurious {s r : State} {i : Nat} (h : spurious_wake s i = some r) :
    work r = work s := by
  unfold spurious_wake at h
  split at h
  · next hj =>
    cases h
    have := sum_map_set_of_getElem? ChefPc.remaining s.chef i _ ChefPc.idle hj
    simp only [ChefPc.remaining] at this
    simp only [work]; omega
  · exact absurd h (by simp)

theorem chefReady_set_other {s : State} {i j : Nat} (x : ChefPc) (hij : i ≠ j)
    (h : chefReady s i) : chefReady { s with chef := s.chef.set j x } i := by
  unfold chefReady at h ⊢
  simp only [List.getElem?_set_ne (Ne.symm hij)]
  exact h

/-- A step that does not lower the work leaves every enabled work-lowering step of
    every thread enabled. -/
theorem progresses_stable {cs : List Customer} {s s' : State} {t u : Thread}
    (hp : Progresses cs s t) (hu : thread_step cs s u = some s') (hw : work s' = work s) :
    Progresses cs s' t := by
  have hform : ∃ j : Nat, (u = Thread.chef j ∨ u = Thread.wake j) ∧
      ((s' = s) ∨
       (s' = { s with chef := s.chef.set j ChefPc.waiting } ∧
          s.chef[j]? = some ChefPc.idle ∧ s.pay_q.count = 0 ∧ s.bake_q.count = 0) ∨
       (s' = { s with chef := s.chef.set j ChefPc.idle } ∧
          s.chef[j]? = some ChefPc.waiting)) := by
    cases u with
    | cust k =>
      obtain ⟨c, _, hc⟩ := customer_step_cases hu
      have := work_custCase hc
      omega
    | chef j =>
      refine ⟨j, Or.inl rfl, ?_⟩
      rcases work_chefCase (chef_step_cases hu) with ⟨_, h1 | h1 | h1⟩ | h1
      · exact Or.inl h1.1
      · exact Or.inr (Or.inl h1)
      · exact Or.inr (Or.inr h1)
      · omega
    | wake j =>
      refine ⟨j, Or.inr rfl, ?_⟩
      rcases @work_chefCase cs _ _ _ (spurious_wake_cases hu) with ⟨_, h1 | h1 | h1⟩ | h1
      · exact Or.inl h1.1
      · exact Or.inr (Or.inl h1)
      · exact Or.inr (Or.inr h1)
      · omega
  obtain ⟨j, _, hform⟩ := hform
  rcases hform with h0 | ⟨hs', hj, hpq, hbq⟩ | ⟨hs', hj⟩
  · rw [h0]; exact hp
  · subst hs'
    cases t with
    | cust k => exact progresses_cust_congr hp rfl rfl rfl rfl rfl
    | chef i =>
      have hready := chefReady_of_progresses hp
      apply progresses_of_chefReady
      by_cases hij : i = j
      · subst hij
        unfold chefReady at hready
        rw [hj] at hready
        simp only at hready
        omega
      · exact chefReady_set_other _ hij hready
    | wake i =>
      obtain ⟨r, hr, hwr⟩ := hp
      have := work_spurious hr
      omega
  · subst hs'
    cases t with
    | cust k => exact progresses_cust_congr hp rfl rfl rfl rfl rfl
    | chef i =>
      have hready := chefReady_of_progresses hp
      apply progresses_of_chefReady
      by_cases hij : i = j
      · subst hij
        unfold chefReady at hready
        rw [hj] at hready
        exact absurd hready (by simp)
      · exact chefReady_set_other _ hij hready
    | wake i =>
      obtain ⟨r, hr, hwr⟩ := hp
      have := work_spurious hr
      omega

theorem exec_succ_of_some {cs : List Customer} {s : State} {sched : Nat → Thread} {i : Nat}
    {r : State} (h : thread_step cs (exec cs s sched i) (sched i) = some r) :
    exec cs s sched (i + 1) = r := by
  simp only [exec, h]

theorem exec_succ_of_none {cs : List Customer} {s : State} {sched : Nat → Thread} {i : Nat}
    (h : thread_step cs (exec cs s sched i) (sched i) = none) :
    exec cs s sched (i + 1) = exec cs s sched i := by
  simp only [exec, h]

theorem exec_reachable {cs : List Customer} {n : Nat} {s : State} (sched : Nat → Thread)
    (hr : Reachable cs n s) : ∀ i : Nat, Reachable cs n (exec cs s sched i) := by
  intro i
  induction i with
  | zero => exact hr
  | succ i ih =>
    cases h : thread_step cs (exec cs s sched i) (sched i) with
    | none => rw [exec_succ_of_none h]; exact ih
    | some r => rw [exec_succ_of_some h]; exact Reachable.step ih (step_of_thread_step h)

theorem eventually_lower {cs : List Customer} {s : State} {sched : Nat → Thread}
    {t : Thread} :
    ∀ (d i : Nat), Progresses cs (exec cs s sched i) t → sched (i + d) = t →
      ∃ m : Nat, i < m ∧ work (exec cs s sched m) < work (exec cs s sched i) := by
  intro d
  induction d with
  | zero =>
    intro i hp hs
    obtain ⟨r, hr, hw⟩ := hp
    rw [Nat.add_zero] at hs
    rw [← hs] at hr
    exact ⟨i + 1, by omega, by rw [exec_succ_of_some hr]; omega⟩
  | succ d ih =>
    intro i hp hs
    have hs' : sched (i + 1 + d) = t := by
      have : i + 1 + d = i + (d + 1) := by omega
      rw [this]; exact hs
    cases h : thread_step cs (exec cs s sched i) (sched i) with
    | none =>
      have e := exec_succ_of_none h
      obtain ⟨m, hm, hw⟩ := ih (i + 1) (by rw [e]; exact hp) hs'
      exact ⟨m, by omega, by rw [e] at hw; exact hw⟩
    | some r =>
      have e := exec_succ_of_some h
      rcases step_work (step_of_thread_step h) with hw | hw
      · obtain ⟨m, hm, hw'⟩ := ih (i + 1) (by rw [e]; exact progresses_stable hp h hw) hs'
        exact ⟨m, by omega, by rw [e] at hw'; omega⟩
      · exact ⟨i + 1, by omega, by rw [e]; omega⟩

theorem allDeparted_step {cs : List Customer} {s s' : State} (h : AllDeparted s)
    (hstep : Step cs s s') : AllDeparted s' := by
  rcases step_cases hstep with ⟨k, c, _, hc⟩ | ⟨j, hc⟩
  · cases hc with
    | wake h1 => exact absurd (h k _ h1) (by simp)
    | enter h1 hs => exact absurd (h k _ h1) (by simp)
    | sit h1 hs => exact absurd (h k _ h1) (by simp)
    | request h1 => exact absurd (h k _ h1) (by simp)
    | takeCake h1 hs => exact absurd (h k _ h1) (by simp)
    | pay h1 => exact absurd (h k _ h1) (by simp)
    | paid h1 hs => exact absurd (h k _ h1) (by simp)
    | freeSofa h1 => exact absurd (h k _ h1) (by simp)
    | freeStore h1 => exact absurd (h k _ h1) (by simp)
  · cases hc <;> exact h

theorem allDeparted_exec {cs : List Customer} {s : State} {sched : Nat → Thread} {i : Nat}
    (h : AllDeparted (exec cs s sched i)) :
    ∀ d : Nat, AllDeparted (exec cs s sched (i + d)) := by
  intro d
  induction d with
  | zero => exact h
  | succ d ih =>
    have e : i + (d + 1) = i + d + 1 := by omega
    rw [e]
    cases hs : thread_step cs (exec cs s sched (i + d)) (sched (i + d)) with
    | none => rw [exec_succ_of_none hs]; exact ih
    | some r => rw [exec_succ_of_some hs]; exact allDeparted_step ih (step_of_thread_step hs)

/-- Under fair scheduling every run from a reachable state reaches, after finitely
    many ticks, a state in which every customer has departed, and stays there. -/
theorem fair_run_departs {cs : List Customer} {n : Nat} {s : State} (hwf : WellFormed cs)
    (hn : 1 ≤ n) (hr : Reachable cs n s) (sched : Nat → Thread) (hfair : Fair cs n sched) :
    ∃ K : Nat, ∀ K' : Nat, K ≤ K' → AllDeparted (exec cs s sched K') := by
  have key : ∀ (w i : Nat), work (exec cs s sched i) ≤ w →
      ∃ K : Nat, AllDeparted (exec cs s sched K) := by
    intro w
    induction w with
    | zero =>
      intro i hw
      by_cases hall : AllDeparted (exec cs s sched i)
      · exact ⟨i, hall⟩
      · have hund : ∃ (k : Nat) (pc : CustPc),
            (exec cs s sched i).cust[k]? = some pc ∧ pc ≠ CustPc.departed := by
          by_contra hno
          apply hall
          intro k pc hpc
          by_contra hne
          exact hno ⟨k, pc, hpc, hne⟩
        obtain ⟨t, _, r, _, hwr⟩ := progress hwf hn (exec_reachable sched hr i) hund
        omega
    | succ w ih =>
      intro i hw
      by_cases hall : AllDeparted (exec cs s sched i)
      · exact ⟨i, hall⟩
      · have hund : ∃ (k : Nat) (pc : CustPc),
            (exec cs s sched i).cust[k]? = some pc ∧ pc ≠ CustPc.departed := by
          by_contra hno
          apply hall
          intro k pc hpc
          by_contra hne
          exact hno ⟨k, pc, hpc, hne⟩
        obtain ⟨t, htr, hp⟩ := progress hwf hn (exec_reachable sched hr i) hund
        obtain ⟨k, hik, hk⟩ := hfair t htr i
        obtain ⟨m, _, hm⟩ := eventually_lower (k - i) i hp (by
          have : i + (k - i) = k := by omega
          rw [this]; exact hk)
        exact ih m (by omega)
  obtain ⟨K, hK⟩ := key (work s) 0 (Nat.le_refl _)
  refine ⟨K, fun K' hK' => ?_⟩
  have := allDeparted_exec hK (K' - K)
  have e : K + (K' - K) = K' := by omega
  rw [e] at this
  exact this

theorem roundRobin_fair : Fair demoCustomers NUM_CHEFS roundRobin := by
  intro t ht i
  cases t with
  | cust k =>
    have hk : k < 2 := ht
    refine ⟨6 * i + k, by omega, ?_⟩
    have hm : (6 * i + k) % 6 = k := by omega
    interval_cases k <;> simp only [roundRobin, hm]
  | chef j =>
    have hj : j < 4 := ht
    refine ⟨6 * i + (j + 2), by omega, ?_⟩
    have hm : (6 * i + (j + 2)) % 6 = j + 2 := by omega
    interval_cases j <;> simp only [roundRobin, hm]
  | wake j => exact absurd ht (by simp [Thread.runs])

/-- C9: for every batch with unique ids and at most `MAXN` customers, with at least one
    chef (capacities 4 and 25), in every reachable state `s`:
    (1) if some customer has not departed, some customer or chef thread (not a spurious
    wake-up) has an enabled step that changes the state and lowers the outstanding work
    (no deadlock; chefs blocked in `pthread_cond_wait` are only woken by a broadcast);
    (2) every step leaves the outstanding work unchanged or lowers it by exactly one;
    (3) the outstanding work is at most 14 per customer;
    (4) under fair scheduling (every customer and chef thread is picked again and
    again) every run from `s` reaches, after finitely many ticks, a state in which
    every customer has departed, and remains there.
    Time is counted in scheduler ticks, each a bounded stretch of simulated time. -/
theorem deadlock_freedom (recs : List Arrival) (n : Nat)
    (hlen : recs.length ≤ MAXN) (hids : (recs.map (fun r => r.id)).Nodup) (hn : 1 ≤ n)
    (s : State) (hr : Reachable (main_setup recs).1 n s) :
    ((∃ (k : Nat) (pc : CustPc), s.cust[k]? = some pc ∧ pc ≠ CustPc.departed) →
      ∃ (t : Thread) (s' : State), t.runs (main_setup recs).1 n ∧
        thread_step (main_setup recs).1 s t = some s' ∧ s' ≠ s ∧ work s' + 1 = work s) ∧
    (∀ s', Step (main_setup recs).1 s s' → work s' = work s ∨ work s' + 1 = work s) ∧
    work s ≤ 14 * (main_setup recs).1.length ∧
    (∀ sched : Nat → Thread, Fair (main_setup recs).1 n sched →
      ∃ K : Nat, ∀ K' : Nat, K ≤ K' →
        AllDeparted (exec (main_setup recs).1 s sched K')) := by
  have hwf := main_setup_wellFormed recs hlen hids
  refine ⟨?_, fun s' h => step_work h, work_le_init hr, ?_⟩
  · intro hund
    obtain ⟨t, htr, s', hs', hw⟩ := progress hwf hn hr hund
    refine ⟨t, s', htr, hs', ?_, hw⟩
    intro he
    rw [he] at hw
    omega
  · intro sched hfair
    exact fair_run_departs hwf hn hr sched hfair

set_option maxRecDepth 100000 in
/-- Witness for C9: the two-customer batch with four chefs under round-robin
    scheduling, started in the initial state: round-robin is fair, both customers have
    departed after 74 ticks, and (by the theorem) from some tick on for good. -/
theorem deadlock_freedom_witness :
    Fair (main_setup demoArrivals).1 NUM_CHEFS roundRobin ∧
    (exec demoCustomers (initState demoCustomers NUM_CHEFS) roundRobin 74).cust =
      [CustPc.departed, CustPc.departed] ∧
    (∃ K : Nat, ∀ K' : Nat, K ≤ K' →
      AllDeparted (exec (main_setup demoArrivals).1
        (initState (main_setup demoArrivals).1 NUM_CHEFS) roundRobin K')) :=
  ⟨roundRobin_fair, by decide,
   (deadlock_freedom demoArrivals NUM_CHEFS (by decide) (by decide) (by decide)
      (initState (main_setup demoArrivals).1 NUM_CHEFS) Reachable.init).2.2.2
      roundRobin roundRobin_fair⟩

/-! ### A dequeued id always has a slot -/

end Bakery
